import Mathlib

/-!
# Geohash encode / decode / adjacency

A shallow embedding of `geohash/geohash.go`.

Conventions of the embedding:

* a Go `string` / `[]byte` is the list of its bytes, each byte written as the
  `Char` with that code;
* `float64` coordinates are exact rationals (`ℚ`); the decoder is given a
  second time with every operation rounded to float64 (`DecodeGeoHashF64`);
* Go `int` counters that only count upwards from `0` are `Nat`; an `int` that
  can be negative (`precision`, the `-1` of `byteSliceIndexOf`) is `Int`, and
  `&` on it is two's-complement `Int.land`;
* a two-element `[]float64` interval `{min, max}` is a pair `(min, max)`;
* in the encoder a slice index that would make Go stop with a run-time error
  is `none`; in `calculateAdjacent` the two slice indices are in range for
  every ASCII input, and are read with `getD`; `calculateAdjacentOpt` is the
  function on every byte string, with `none` for the run-time error.
-/

namespace Geohash

/-! ## Constants and tables -/

/-- The four base directions `RIGHT = 0`, `LEFT = 1`, `TOP = 2`, `BOTTOM = 3`. -/
inductive BaseDirection where
  | RIGHT
  | LEFT
  | TOP
  | BOTTOM
  deriving DecidableEq, Repr

/-- The two table selectors `EVEN = 0` and `ODD = 1`. -/
inductive IndexType where
  | EVEN
  | ODD
  deriving DecidableEq, Repr

open BaseDirection IndexType

/-- The 32-symbol alphabet; the position of a symbol is its 5-bit value. -/
def Base32 : List Char :=
  ['0','1','2','3','4','5','6','7','8','9','b','c','d','e','f','g',
   'h','j','k','m','n','p','q','r','s','t','u','v','w','x','y','z']

/-- The masks of the five bits of a symbol, most significant first. -/
def Bits : List Nat := [16, 8, 4, 2, 1]

/-- The four rows `NEIGHBORS[EVEN][d]` written out in `init`. -/
def NEIGHBORS_EVEN : BaseDirection → List Char
  | RIGHT => ['b','c','0','1','f','g','4','5','2','3','8','9',
      '6','7','d','e','u','v','h','j','y','z','n','p','k','m','s','t','q','r','w','x']
  | LEFT => ['2','3','8','9','6','7','d','e','b','c','0','1',
      'f','g','4','5','k','m','s','t','q','r','w','x','u','v','h','j','y','z','n','p']
  | TOP => ['p','0','r','2','1','4','3','6','x','8','z','b',
      '9','d','c','f','5','h','7','k','j','n','m','q','e','s','g','u','t','w','v','y']
  | BOTTOM => ['1','4','3','6','5','h','7','k','9','d','c','f',
      'e','s','g','u','j','n','m','q','p','0','r','2','t','w','v','y','x','8','z','b']

/-- The table `NEIGHBORS` as `init` leaves it: the `ODD` rows are the `EVEN`
rows with `RIGHT`/`TOP` and `LEFT`/`BOTTOM` exchanged. -/
def NEIGHBORS : IndexType → BaseDirection → List Char
  | EVEN, d => NEIGHBORS_EVEN d
  | ODD, RIGHT => NEIGHBORS_EVEN TOP
  | ODD, LEFT => NEIGHBORS_EVEN BOTTOM
  | ODD, TOP => NEIGHBORS_EVEN RIGHT
  | ODD, BOTTOM => NEIGHBORS_EVEN LEFT

/-- The four rows `BORDERS[EVEN][d]` written out in `init`. -/
def BORDERS_EVEN : BaseDirection → List Char
  | RIGHT => ['b','c','f','g','u','v','y','z']
  | LEFT => ['0','1','4','5','h','j','n','p']
  | TOP => ['p','r','x','z']
  | BOTTOM => ['0','2','8','b']

/-- The table `BORDERS` as `init` leaves it. -/
def BORDERS : IndexType → BaseDirection → List Char
  | EVEN, d => BORDERS_EVEN d
  | ODD, RIGHT => BORDERS_EVEN TOP
  | ODD, LEFT => BORDERS_EVEN BOTTOM
  | ODD, TOP => BORDERS_EVEN RIGHT
  | ODD, BOTTOM => BORDERS_EVEN LEFT

/-! ## Helpers -/

/-- The loop of `byteSliceIndexOf`, started at index `idx`. -/
def byteSliceIndexOfFrom (k : Char) : List Char → Nat → Int
  | [], _ => -1
  | v :: rest, idx => if v = k then (idx : Int) else byteSliceIndexOfFrom k rest (idx + 1)

/-- Index of the first occurrence of `k` in `byteSlice`, or `-1`. -/
def byteSliceIndexOf (byteSlice : List Char) (k : Char) : Int :=
  byteSliceIndexOfFrom k byteSlice 0

/-- Go `strings.ToLower` on an ASCII string: `A`..`Z` become `a`..`z`, every
other byte is kept. -/
def ToLower (s : List Char) : List Char := s.map Char.toLower

/-- Modelled from the spec: `utils.CoordinateCheck`, the external validator,
"a simple range check on latitude ∈ [-90,90] and longitude ∈ [-180,180]". -/
def CoordinateCheck (latitude longitude : ℚ) : Bool :=
  decide (-90 ≤ latitude ∧ latitude ≤ 90 ∧ -180 ≤ longitude ∧ longitude ≤ 180)

/-! ## Encoder -/

/-- The local variables of `EncodeGeoHash` that the loop reads and writes. -/
structure EncodeState where
  IndexEven : Bool
  latStart : ℚ
  latEnd : ℚ
  lngStart : ℚ
  lngEnd : ℚ
  buffer : List Char
  ch : Nat
  bitIndex : Nat
  length : Nat

/-- The variables as they stand when the loop is entered. -/
def encodeInit : EncodeState :=
  { IndexEven := true, latStart := -90, latEnd := 90, lngStart := -180, lngEnd := 180,
    buffer := [], ch := 0, bitIndex := 0, length := 0 }

/-- The first half of the loop body: one bisection of the longitude or of the
latitude interval. `none` when `Bits[bitIndex]` is out of range. -/
def encodeBisect (latitude longitude : ℚ) (s : EncodeState) : Option EncodeState :=
  if s.IndexEven then
    let mid := (s.lngStart + s.lngEnd) / 2
    if longitude > mid then
      (Bits[s.bitIndex]?).map fun b => { s with ch := s.ch ||| b, lngStart := mid }
    else
      some { s with lngEnd := mid }
  else
    let mid := (s.latStart + s.latEnd) / 2
    if latitude > mid then
      (Bits[s.bitIndex]?).map fun b => { s with ch := s.ch ||| b, latStart := mid }
    else
      some { s with latEnd := mid }

/-- The second half of the loop body: flip `IndexEven`, then either advance
`bitIndex` or emit `Base32[ch]`. `none` when `Base32[ch]` is out of range. -/
def encodeEmit (s : EncodeState) : Option EncodeState :=
  let s := { s with IndexEven := !s.IndexEven }
  if s.bitIndex < 4 then
    some { s with bitIndex := s.bitIndex + 1 }
  else
    (Base32[s.ch]?).map fun c =>
      { s with buffer := s.buffer ++ [c], bitIndex := 0, ch := 0, length := s.length + 1 }

/-- One pass through the body of `for length < precision`. -/
def encodeBody (latitude longitude : ℚ) (s : EncodeState) : Option EncodeState :=
  (encodeBisect latitude longitude s).bind encodeEmit

/-- The loop `for length < precision`, run for at most `fuel` passes; `none`
when a pass stops with a run-time error or the fuel is used up before the
loop condition fails. -/
def encodeLoop (latitude longitude : ℚ) (precision : Int) : Nat → EncodeState → Option EncodeState
  | 0, s => if (s.length : Int) < precision then none else some s
  | fuel + 1, s =>
    if (s.length : Int) < precision then
      (encodeBody latitude longitude s).bind (encodeLoop latitude longitude precision fuel)
    else some s

/-- The function `EncodeGeoHash`. The result `some (str, err)` is the returned
pair, `err = true` standing for a non-nil error; `none` means that the call
did not return. -/
def EncodeGeoHash (latitude longitude : ℚ) (precision : Int) : Option (List Char × Bool) :=
  if precision ≤ 0 ∨ ¬ CoordinateCheck latitude longitude then
    some ([], true)
  else
    (encodeLoop latitude longitude precision (5 * precision.toNat) encodeInit).map
      fun s => (s.buffer, false)

/-! ## Decoder -/

/-- The local variables of `DecodeGeoHash`. -/
structure DecodeState where
  IndexEven : Bool
  lat : ℚ × ℚ
  lng : ℚ × ℚ
  latErr : ℚ
  lngErr : ℚ

/-- The variables as they stand when the loop is entered. -/
def decodeInit : DecodeState :=
  { IndexEven := true, lat := (-90, 90), lng := (-180, 180), latErr := 90, lngErr := 180 }

/-- The function `refineInterval`: halve the interval, keeping the upper half
when `idx & mask > 0`. -/
def refineInterval (interval : ℚ × ℚ) (idx : Int) (mask : Nat) : ℚ × ℚ :=
  if Int.land idx (mask : Int) > 0 then
    ((interval.1 + interval.2) / 2, interval.2)
  else
    (interval.1, (interval.1 + interval.2) / 2)

/-- The body of the inner loop `for j` of `DecodeGeoHash`, for `mask = Bits[j]`. -/
def decodeBit (idx : Int) (s : DecodeState) (mask : Nat) : DecodeState :=
  if s.IndexEven then
    { s with lngErr := s.lngErr / 2, lng := refineInterval s.lng idx mask,
             IndexEven := !s.IndexEven }
  else
    { s with latErr := s.latErr / 2, lat := refineInterval s.lat idx mask,
             IndexEven := !s.IndexEven }

/-- The body of the outer loop `for i` of `DecodeGeoHash`, for `ch = geoHash[i]`. -/
def decodeChar (s : DecodeState) (ch : Char) : DecodeState :=
  let idx := byteSliceIndexOf Base32 ch
  Bits.foldl (decodeBit idx) s

/-- The two loops of `DecodeGeoHash`. -/
def decodeLoop (geoHash : List Char) : DecodeState :=
  geoHash.foldl decodeChar decodeInit

/-- The function `DecodeGeoHash`: for each axis `[min, max, centre, error]`,
latitude first. -/
def DecodeGeoHash (geoHash : List Char) : List ℚ × List ℚ :=
  let s := decodeLoop geoHash
  ([s.lat.1, s.lat.2, (s.lat.1 + s.lat.2) / 2, s.latErr],
   [s.lng.1, s.lng.2, (s.lng.1 + s.lng.2) / 2, s.lngErr])

/-! ### The decoder in float64

The decoder above computes with exact rationals. The definitions below follow
the same source lines with Go's `float64` arithmetic: the result of every `+`
and `/` is rounded to the nearest binary64 value, ties to the even mantissa. -/

/-- The number of halvings that bring `n` below 2, that is `⌊log₂ n⌋` for
`1 ≤ n ≤ fuel`. -/
def log2Steps : Nat → Nat → Nat
  | 0, _ => 0
  | fuel + 1, n => if n < 2 then 0 else log2Steps fuel (n / 2) + 1

/-- The binary exponent of a rational `x ≠ 0`: the greatest `e` with
`2 ^ e ≤ |x|` (`floorLog2_le`). -/
def floorLog2 (x : ℚ) : Int :=
  let n := x.num.natAbs
  let d := x.den
  let a := log2Steps n n
  let b := log2Steps d d
  if b ≤ a then
    if 2 ^ (a - b) * d ≤ n then ((a - b : Nat) : Int) else ((a - b : Nat) : Int) - 1
  else
    if d ≤ 2 ^ (b - a) * n then -((b - a : Nat) : Int) else -((b - a : Nat) : Int) - 1

/-- The nearest integer, a tie going to the even one. -/
def roundHalfEven (q : ℚ) : Int :=
  let f := ⌊q⌋
  let r := q - f
  if r < 1 / 2 then f
  else if 1 / 2 < r then f + 1
  else if f % 2 = 0 then f else f + 1

/-- The float64 nearest to `x`, ties to even: a multiple of `2 ^ s` with a
mantissa of at most 53 bits, where `s` is 52 below the binary exponent of `x`
and not below `-1074`, the exponent of the least subnormal. Overflow to
infinity is left out: it needs `|x| ≥ 2 ^ 1024`, and the decoder forms no value
beyond 360. -/
def roundFloat64 (x : ℚ) : ℚ :=
  if x = 0 then 0
  else
    let s : Int := max (floorLog2 x) (-1022) - 52
    if 0 ≤ s then
      (roundHalfEven (x / ((2 ^ s.toNat : Nat) : ℚ)) : ℚ) * ((2 ^ s.toNat : Nat) : ℚ)
    else
      (roundHalfEven (x * ((2 ^ (-s).toNat : Nat) : ℚ)) : ℚ) / ((2 ^ (-s).toNat : Nat) : ℚ)

/-- The function `calculateAdjacent` on an ASCII string. There both slice
indices are in range, so the default of `getD` is never used: `lowerHash` is as
long as `geoHash`, and every row of `NEIGHBORS` has 32 entries
(`neighborIndex_lt`); `calculateAdjacentOpt_ascii` states the agreement with
the function on arbitrary bytes. -/
def calculateAdjacent (geoHash : List Char) (direction : BaseDirection) : List Char :=
  let length := geoHash.length
  if length = 0 then []
  else
    let indexType := if length % 2 = 1 then ODD else EVEN
    let lowerHash := ToLower geoHash
    let lastChr := lowerHash.getD (length - 1) (Char.ofNat 0)
    let base := lowerHash.take (length - 1)
    let lastChrOnBorder : Bool := byteSliceIndexOf (BORDERS indexType direction) lastChr != -1
    let base := if lastChrOnBorder then calculateAdjacent base direction else base
    if lastChrOnBorder ∧ base = [] then []
    else
      let idx := byteSliceIndexOf (NEIGHBORS indexType direction) lastChr
      if idx = -1 then []
      else base ++ [Base32.getD idx.toNat (Char.ofNat 0)]
termination_by geoHash.length
decreasing_by
  simp [ToLower]
  omega

/-- The function `calculateAdjacent` with the depth of the recursion counted
down explicitly. It agrees with `calculateAdjacent` when started at
`geoHash.length` (`calculateAdjacent_eq_depth`) and evaluates by unfolding. -/
def calculateAdjacentDepth : Nat → List Char → BaseDirection → List Char
  | 0, _, _ => []
  | depth + 1, geoHash, direction =>
    let length := geoHash.length
    if length = 0 then []
    else
      let indexType := if length % 2 = 1 then ODD else EVEN
      let lowerHash := ToLower geoHash
      let lastChr := lowerHash.getD (length - 1) (Char.ofNat 0)
      let base := lowerHash.take (length - 1)
      let lastChrOnBorder : Bool := byteSliceIndexOf (BORDERS indexType direction) lastChr != -1
      let base := if lastChrOnBorder then calculateAdjacentDepth depth base direction else base
      if lastChrOnBorder ∧ base = [] then []
      else
        let idx := byteSliceIndexOf (NEIGHBORS indexType direction) lastChr
        if idx = -1 then []
        else base ++ [Base32.getD idx.toNat (Char.ofNat 0)]

/-- The function `GetAdjacentGridGeoHash`: the eight neighbours, clockwise from
the top. -/
def GetAdjacentGridGeoHash (geoHash : List Char) : List (List Char) :=
  let leftGrid := calculateAdjacent geoHash LEFT
  let rightGrid := calculateAdjacent geoHash RIGHT
  let topGrid := calculateAdjacent geoHash TOP
  let bottomGrid := calculateAdjacent geoHash BOTTOM
  let topLeftGrid := calculateAdjacent topGrid LEFT
  let topRightGrid := calculateAdjacent topGrid RIGHT
  let bottomLeftGrid := calculateAdjacent bottomGrid LEFT
  let bottomRightGrid := calculateAdjacent bottomGrid RIGHT
  [topGrid, topRightGrid, rightGrid, bottomRightGrid,
   bottomGrid, bottomLeftGrid, leftGrid, topLeftGrid]

/-! ### Adjacency on arbitrary bytes

`calculateAdjacent` above is the function on ASCII strings, where
`strings.ToLower` keeps the length of the string. On other input the library
function can return a string of another length, while the code still takes the
index of the last byte from `geoHash`. The definitions below follow the source
on every byte string: `strings.ToLower`, which is library code, is the argument
`lower`, and `none` is the run-time panic of an index out of range. -/

/-- The function `calculateAdjacent` on an arbitrary byte string: `lastChr` is
`lowerHash[length - 1]` for `length = len(geoHash)`, a panic when `lowerHash`
is shorter. -/
def calculateAdjacentOpt (lower : List Char → List Char) (geoHash : List Char)
    (direction : BaseDirection) : Option (List Char) :=
  let length := geoHash.length
  if length = 0 then some []
  else
    let indexType := if length % 2 = 1 then ODD else EVEN
    let lowerHash := lower geoHash
    match lowerHash[length - 1]? with
    | none => none
    | some lastChr =>
      let base := lowerHash.take (length - 1)
      let lastChrOnBorder : Bool := byteSliceIndexOf (BORDERS indexType direction) lastChr != -1
      match (if lastChrOnBorder then calculateAdjacentOpt lower base direction else some base) with
      | none => none
      | some base =>
        if lastChrOnBorder ∧ base = [] then some []
        else
          let idx := byteSliceIndexOf (NEIGHBORS indexType direction) lastChr
          if idx = -1 then some []
          else (Base32[idx.toNat]?).map (fun c => base ++ [c])
termination_by geoHash.length
decreasing_by
  simp only [List.length_take]
  omega

/-- The function `GetAdjacentGridGeoHash` on an arbitrary byte string, the
calls in the order of the source; a panic in one of them ends the function. -/
def GetAdjacentGridGeoHashOpt (lower : List Char → List Char) (geoHash : List Char) :
    Option (List (List Char)) := do
  let leftGrid ← calculateAdjacentOpt lower geoHash LEFT
  let rightGrid ← calculateAdjacentOpt lower geoHash RIGHT
  let topGrid ← calculateAdjacentOpt lower geoHash TOP
  let bottomGrid ← calculateAdjacentOpt lower geoHash BOTTOM
  let topLeftGrid ← calculateAdjacentOpt lower topGrid LEFT
  let topRightGrid ← calculateAdjacentOpt lower topGrid RIGHT
  let bottomLeftGrid ← calculateAdjacentOpt lower bottomGrid LEFT
  let bottomRightGrid ← calculateAdjacentOpt lower bottomGrid RIGHT
  pure [topGrid, topRightGrid, rightGrid, bottomRightGrid,
    bottomGrid, bottomLeftGrid, leftGrid, topLeftGrid]

/-! ## Notions used to state and prove the theorems -/

/-- Bit `j` (0 is the most significant) of a symbol index, read the way
`refineInterval` reads it: `idx & Bits[j] > 0`. -/
def bitAt (idx : Int) (j : Nat) : Bool :=
  decide (Int.land idx ((Bits.getD j 0 : Nat) : Int) > 0)

/-- The value `0` or `1` of bit `j` of a symbol index. -/
def bitNat (idx : Int) (j : Nat) : Nat := if bitAt idx j then 1 else 0

/-- One halving of an interval: the upper half for bit `1`, the lower half for
bit `0`. -/
def bisect (interval : ℚ × ℚ) (b : Bool) : ℚ × ℚ :=
  if b then ((interval.1 + interval.2) / 2, interval.2)
  else (interval.1, (interval.1 + interval.2) / 2)

/-- The `k`-th of `n` equal parts of an interval, counted from its lower end. -/
def subCell (interval : ℚ × ℚ) (k n : Nat) : ℚ × ℚ :=
  (interval.1 + k * (interval.2 - interval.1) / n,
   interval.1 + (k + 1) * (interval.2 - interval.1) / n)

/-- Column of a symbol inside its parent cell, counted from the west; `e` is
the decoder's `IndexEven` when the symbol is reached. -/
def lngCol (e : Bool) (idx : Int) : Nat :=
  if e then 4 * bitNat idx 0 + 2 * bitNat idx 2 + bitNat idx 4
  else 2 * bitNat idx 1 + bitNat idx 3

/-- Row of a symbol inside its parent cell, counted from the south. -/
def latRow (e : Bool) (idx : Int) : Nat :=
  if e then 2 * bitNat idx 1 + bitNat idx 3
  else 4 * bitNat idx 0 + 2 * bitNat idx 2 + bitNat idx 4

/-- Number of columns a symbol divides its parent cell into. -/
def lngDiv (e : Bool) : Nat := if e then 8 else 4

/-- Number of rows a symbol divides its parent cell into. -/
def latDiv (e : Bool) : Nat := if e then 4 else 8

/-- The encoder state and the decoder state stand at the same place in the bit
order and hold the same two intervals. -/
def Agree (s : EncodeState) (d : DecodeState) : Prop :=
  d.IndexEven = s.IndexEven ∧ d.lat = (s.latStart, s.latEnd) ∧ d.lng = (s.lngStart, s.lngEnd)

/-- The coordinate lies in the two intervals of the encoder state. -/
def Contains (s : EncodeState) (latitude longitude : ℚ) : Prop :=
  s.latStart ≤ latitude ∧ latitude ≤ s.latEnd ∧ s.lngStart ≤ longitude ∧ longitude ≤ s.lngEnd

/-- The invariant of the encoder loop: the indices stay in range, the buffer
holds `length` symbols of the alphabet, the bits of `ch` not yet decided are
zero, and a decoder that reads the buffer and then `bitIndex` bits of any
symbol starting with the bits of `ch` arrives at the encoder's intervals. -/
def EncodeInv (s : EncodeState) : Prop :=
  s.bitIndex ≤ 4 ∧ s.ch < 32 ∧ s.buffer.length = s.length ∧ (∀ c ∈ s.buffer, c ∈ Base32) ∧
  (∀ j, s.bitIndex ≤ j → j < 5 → bitAt (s.ch : Int) j = false) ∧
  ∀ idx : Int, (∀ j, j < s.bitIndex → bitAt idx j = bitAt (s.ch : Int) j) →
    Agree s ((Bits.take s.bitIndex).foldl (decodeBit idx) (decodeLoop s.buffer))

/-- Membership of the last symbol in `BORDERS[indexType][direction]`, as
`calculateAdjacent` tests it. -/
def onBorder (t : IndexType) (d : BaseDirection) (c : Char) : Bool :=
  byteSliceIndexOf (BORDERS t d) c != -1

/-- The symbol `calculateAdjacent` appends: `Base32[idx]` for `idx` the position
of the last symbol in `NEIGHBORS[indexType][direction]`. -/
def newLast (t : IndexType) (d : BaseDirection) (c : Char) : Char :=
  Base32.getD (byteSliceIndexOf (NEIGHBORS t d) c).toNat (Char.ofNat 0)

/-- The table selector `calculateAdjacent` uses for a string of this length. -/
def indexTypeOf (length : Nat) : IndexType := if length % 2 = 1 then ODD else EVEN

/-- The opposite direction: `LEFT`/`RIGHT` and `TOP`/`BOTTOM` exchanged. -/
def opposite : BaseDirection → BaseDirection
  | RIGHT => LEFT
  | LEFT => RIGHT
  | TOP => BOTTOM
  | BOTTOM => TOP

/-- The decoder's `IndexEven` when it reaches the last symbol of a string for
which `calculateAdjacent` selects the tables `t`. -/
def indexEvenOf : IndexType → Bool
  | ODD => true
  | EVEN => false

/-- The cell of `h` touches the cell of `g` on the side `d`: for `RIGHT` the
west edge of `h` is the east edge of `g` and the latitude intervals are equal,
and likewise for the three other directions. -/
def CellAdjacent (d : BaseDirection) (g h : DecodeState) : Prop :=
  match d with
  | RIGHT => h.lng.1 = g.lng.2 ∧ h.lat = g.lat
  | LEFT => h.lng.2 = g.lng.1 ∧ h.lat = g.lat
  | TOP => h.lat.1 = g.lat.2 ∧ h.lng = g.lng
  | BOTTOM => h.lat.2 = g.lat.1 ∧ h.lng = g.lng

/-- The coordinate lies strictly above the lower end of each interval of the
encoder state, unless it is the least latitude or the least longitude. -/
def StrictLow (s : EncodeState) (latitude longitude : ℚ) : Prop :=
  (s.latStart < latitude ∨ latitude = -90) ∧ (s.lngStart < longitude ∨ longitude = -180)

/-- The three bytes `E2 84 AA` that encode the Kelvin sign U+212A in UTF-8. Go's
`strings.ToLower` maps this string to the one-byte string `k`. -/
def kelvinSign : List Char := [Char.ofNat 0xE2, Char.ofNat 0x84, Char.ofNat 0xAA]

/-- A function with the two properties of `strings.ToLower` that are used
below, byte-wise lower-casing of ASCII strings and `k` for the Kelvin sign; it
shows that the two can hold together. -/
def lowerSample (s : List Char) : List Char :=
  if s = kelvinSign then ['k'] else ToLower s

/-! ## Facts about the tables and helpers -/

theorem byteSliceIndexOfFrom_lt (k : Char) (l : List Char) (n : Nat) :
    byteSliceIndexOfFrom k l n < ((n + l.length : Nat) : Int) := by
  induction l generalizing n with
  | nil => simp only [byteSliceIndexOfFrom, List.length_nil]; omega
  | cons v rest ih =>
    simp only [byteSliceIndexOfFrom, List.length_cons]
    split
    · omega
    · have h := ih (n + 1); omega

theorem NEIGHBORS_length (t : IndexType) (d : BaseDirection) :
    (NEIGHBORS t d).length = 32 := by
  cases t <;> cases d <;> rfl

theorem neighborIndex_lt (t : IndexType) (d : BaseDirection) (c : Char) :
    (byteSliceIndexOf (NEIGHBORS t d) c).toNat < Base32.length := by
  have h := byteSliceIndexOfFrom_lt c (NEIGHBORS t d) 0
  rw [NEIGHBORS_length] at h
  have h32 : Base32.length = 32 := rfl
  unfold byteSliceIndexOf
  omega

/-! ## Bits of a symbol -/

set_option maxRecDepth 100000 in
theorem lor_Bits_lt : ∀ ch < 32, ∀ k < 5, ch ||| Bits.getD k 0 < 32 := by
  decide

set_option maxRecDepth 100000 in
theorem bitAt_lor : ∀ ch < 32, ∀ k < 5, ∀ j < 5,
    bitAt ((ch ||| Bits.getD k 0 : Nat) : Int) j = (decide (j = k) || bitAt (ch : Int) j) := by
  decide

set_option maxRecDepth 100000 in
theorem byteSliceIndexOf_Base32_getD : ∀ n < 32,
    byteSliceIndexOf Base32 (Base32.getD n (Char.ofNat 0)) = (n : Int) := by
  decide

set_option maxRecDepth 100000 in
theorem Base32_getD_mem : ∀ n < 32, Base32.getD n (Char.ofNat 0) ∈ Base32 := by
  decide

theorem Bits_take_succ : ∀ k < 5, Bits.take (k + 1) = Bits.take k ++ [Bits.getD k 0] := by
  decide

theorem Bits_getElem? : ∀ k < 5, Bits[k]? = some (Bits.getD k 0) := by
  decide

theorem Base32_getElem? : ∀ n < 32, Base32[n]? = some (Base32.getD n (Char.ofNat 0)) := by
  decide

theorem refineInterval_eq_bisect (interval : ℚ × ℚ) (idx : Int) (k : Nat) :
    refineInterval interval idx (Bits.getD k 0) = bisect interval (bitAt idx k) := by
  unfold refineInterval bisect bitAt
  by_cases h : Int.land idx ((Bits.getD k 0 : Nat) : Int) > 0 <;> simp [h]

theorem decodeLoop_snoc (g : List Char) (c : Char) :
    decodeLoop (g ++ [c]) = decodeChar (decodeLoop g) c := by
  simp [decodeLoop, List.foldl_append]

/-! ## The encoder loop -/

theorem encodeInit_inv : EncodeInv encodeInit := by
  refine ⟨by decide, by decide, rfl, ?_, ?_, ?_⟩
  · intro c hc; simp [encodeInit] at hc
  · intro j _ hj
    have : ∀ j < 5, bitAt ((0 : Nat) : Int) j = false := by decide
    exact this j hj
  · intro idx _
    exact ⟨rfl, rfl, rfl⟩

theorem encodeBisect_spec (latitude longitude : ℚ) (s : EncodeState) (hk : s.bitIndex < 5)
    (hin : Contains s latitude longitude) :
    ∃ s1 b, encodeBisect latitude longitude s = some s1 ∧ s1.IndexEven = s.IndexEven ∧
      s1.buffer = s.buffer ∧ s1.bitIndex = s.bitIndex ∧ s1.length = s.length ∧
      s1.ch = (if b = true then s.ch ||| Bits.getD s.bitIndex 0 else s.ch) ∧
      (s1.latStart, s1.latEnd)
        = (if s.IndexEven = true then (s.latStart, s.latEnd) else bisect (s.latStart, s.latEnd) b) ∧
      (s1.lngStart, s1.lngEnd)
        = (if s.IndexEven = true then bisect (s.lngStart, s.lngEnd) b else (s.lngStart, s.lngEnd)) ∧
      Contains s1 latitude longitude := by
  obtain ⟨k1, k2, k3, k4⟩ := hin
  unfold encodeBisect
  rw [Bits_getElem? _ hk]
  cases hie : s.IndexEven
  · by_cases hcmp : latitude > (s.latStart + s.latEnd) / 2
    · refine ⟨{ s with ch := s.ch ||| Bits.getD s.bitIndex 0,
                       latStart := (s.latStart + s.latEnd) / 2 }, true, ?_, hie.symm ▸ rfl, rfl, rfl, rfl, rfl, ?_, ?_, ?_⟩
      · simp only [Bool.false_eq_true, if_false, if_pos hcmp, Option.map_some', hie]
      · simp only [Bool.false_eq_true, if_false, bisect, if_true]
      · simp only [Bool.false_eq_true, if_false]
      · exact ⟨le_of_lt hcmp, k2, k3, k4⟩
    · refine ⟨{ s with latEnd := (s.latStart + s.latEnd) / 2 }, false, ?_, hie.symm ▸ rfl, rfl, rfl, rfl, ?_, ?_, ?_, ?_⟩
      · simp only [Bool.false_eq_true, if_false, if_neg hcmp, hie]
      · simp only [Bool.false_eq_true, if_false]
      · simp only [Bool.false_eq_true, if_false, bisect]
      · simp only [Bool.false_eq_true, if_false]
      · exact ⟨k1, not_lt.mp hcmp, k3, k4⟩
  · by_cases hcmp : longitude > (s.lngStart + s.lngEnd) / 2
    · refine ⟨{ s with ch := s.ch ||| Bits.getD s.bitIndex 0,
                       lngStart := (s.lngStart + s.lngEnd) / 2 }, true, ?_, hie.symm ▸ rfl, rfl, rfl, rfl, rfl, ?_, ?_, ?_⟩
      · simp only [if_true, if_pos hcmp, Option.map_some', hie]
      · simp only [if_true]
      · simp only [if_true, bisect]
      · exact ⟨k1, k2, le_of_lt hcmp, k4⟩
    · refine ⟨{ s with lngEnd := (s.lngStart + s.lngEnd) / 2 }, false, ?_, hie.symm ▸ rfl, rfl, rfl, rfl, ?_, ?_, ?_, ?_⟩
      · simp only [if_true, if_neg hcmp, hie]
      · simp only [Bool.false_eq_true, if_false]
      · simp only [if_true]
      · simp only [if_true, bisect, Bool.false_eq_true, if_false]
      · exact ⟨k1, k2, k3, not_lt.mp hcmp⟩

theorem decodeBit_bisect (idx : Int) (d : DecodeState) (k : Nat) :
    (decodeBit idx d (Bits.getD k 0)).IndexEven = (!d.IndexEven) ∧
    (decodeBit idx d (Bits.getD k 0)).lat
      = (if d.IndexEven = true then d.lat else bisect d.lat (bitAt idx k)) ∧
    (decodeBit idx d (Bits.getD k 0)).lng
      = (if d.IndexEven = true then bisect d.lng (bitAt idx k) else d.lng) := by
  unfold decodeBit
  cases h : d.IndexEven
  · simp only [Bool.false_eq_true, if_false, refineInterval_eq_bisect, Bool.not_false, and_self]
  · simp only [if_true, refineInterval_eq_bisect, Bool.not_true, and_self]

theorem encodeBody_inv (latitude longitude : ℚ) (s : EncodeState) (h : EncodeInv s)
    (hin : Contains s latitude longitude) :
    ∃ s', encodeBody latitude longitude s = some s' ∧ EncodeInv s' ∧
      Contains s' latitude longitude ∧
      5 * s'.length + s'.bitIndex = 5 * s.length + s.bitIndex + 1 ∧
      s.buffer <+: s'.buffer := by
  obtain ⟨hbi, hch, hlen, hmem, hzero, hag⟩ := h
  have hk : s.bitIndex < 5 := by omega
  obtain ⟨s1, b, hs1, e1, e2, e3, e4, e5, e6, e7, hin1⟩ :=
    encodeBisect_spec latitude longitude s hk hin
  have hch1 : s1.ch < 32 := by
    rw [e5]; split
    · exact lor_Bits_lt _ hch _ hk
    · exact hch
  have hbit1 : ∀ j, j < 5 → j ≠ s.bitIndex → bitAt (s1.ch : Int) j = bitAt (s.ch : Int) j := by
    intro j hj hne
    rw [e5]; split
    · rw [bitAt_lor _ hch _ hk _ hj]; simp [hne]
    · rfl
  have hbitk : bitAt (s1.ch : Int) s.bitIndex = b := by
    rw [e5]; cases b
    · simpa using hzero _ le_rfl hk
    · simp only [if_true]; rw [bitAt_lor _ hch _ hk _ hk]; simp
  have hag1 : ∀ idx : Int, (∀ j, j < s.bitIndex + 1 → bitAt idx j = bitAt (s1.ch : Int) j) →
      ((Bits.take (s.bitIndex + 1)).foldl (decodeBit idx) (decodeLoop s.buffer)).IndexEven
        = (!s.IndexEven) ∧
      ((Bits.take (s.bitIndex + 1)).foldl (decodeBit idx) (decodeLoop s.buffer)).lat
        = (s1.latStart, s1.latEnd) ∧
      ((Bits.take (s.bitIndex + 1)).foldl (decodeBit idx) (decodeLoop s.buffer)).lng
        = (s1.lngStart, s1.lngEnd) := by
    intro idx hidx
    obtain ⟨p1, p2, p3⟩ := hag idx (fun j hj => by
      rw [hidx j (by omega), hbit1 j (by omega) (by omega)])
    have hb : bitAt idx s.bitIndex = b := by rw [hidx _ (by omega), hbitk]
    simp only [Bits_take_succ _ hk, List.foldl_append, List.foldl_cons, List.foldl_nil]
    obtain ⟨q1, q2, q3⟩ := decodeBit_bisect idx
      ((Bits.take s.bitIndex).foldl (decodeBit idx) (decodeLoop s.buffer)) s.bitIndex
    rw [q1, q2, q3, p1, p2, p3, hb, e6, e7]
    exact ⟨rfl, rfl, rfl⟩
  unfold encodeBody
  rw [hs1, Option.some_bind]
  unfold encodeEmit
  by_cases hlt : s.bitIndex < 4
  · simp only [e3, if_pos hlt]
    refine ⟨_, rfl, ⟨?_, hch1, ?_, ?_, ?_, ?_⟩, hin1, ?_, ?_⟩
    · show s.bitIndex + 1 ≤ 4
      omega
    · show s1.buffer.length = s1.length
      rw [e2, e4]; exact hlen
    · show ∀ c ∈ s1.buffer, c ∈ Base32
      rw [e2]; exact hmem
    · intro j hj1 hj2
      have hj1 : s.bitIndex + 1 ≤ j := hj1
      show bitAt (s1.ch : Int) j = false
      rw [hbit1 j hj2 (by omega)]
      exact hzero j (by omega) hj2
    · intro idx hidx
      have := hag1 idx hidx
      rw [← e2, ← e1] at this
      exact this
    · show 5 * s1.length + (s.bitIndex + 1) = 5 * s.length + s.bitIndex + 1
      rw [e4]; omega
    · show s.buffer <+: s1.buffer
      rw [e2]
  · have h4 : s.bitIndex = 4 := by omega
    simp only [e3, if_neg hlt, Base32_getElem? _ hch1, Option.map_some']
    refine ⟨_, rfl, ⟨Nat.zero_le _, Nat.zero_lt_succ _, ?_, ?_, ?_, ?_⟩, hin1, ?_, ?_⟩
    · show (s1.buffer ++ [Base32.getD s1.ch (Char.ofNat 0)]).length = s1.length + 1
      rw [List.length_append, e2, e4, hlen]; rfl
    · show ∀ c ∈ s1.buffer ++ [Base32.getD s1.ch (Char.ofNat 0)], c ∈ Base32
      intro c hc
      rw [List.mem_append, e2] at hc
      rcases hc with hc | hc
      · exact hmem c hc
      · rw [List.mem_singleton] at hc
        rw [hc]; exact Base32_getD_mem _ hch1
    · intro j _ hj
      have : ∀ j < 5, bitAt ((0 : Nat) : Int) j = false := by decide
      exact this j hj
    · intro idx _
      show Agree _ (decodeLoop (s1.buffer ++ [Base32.getD s1.ch (Char.ofNat 0)]))
      rw [decodeLoop_snoc, e2]
      unfold decodeChar
      rw [byteSliceIndexOf_Base32_getD _ hch1]
      have := hag1 (s1.ch : Int) (fun j _ => rfl)
      rw [h4, ← e1] at this
      exact this
    · show 5 * (s1.length + 1) + 0 = 5 * s.length + s.bitIndex + 1
      rw [e4]; omega
    · show s.buffer <+: s1.buffer ++ [Base32.getD s1.ch (Char.ofNat 0)]
      rw [e2]; exact List.prefix_append _ _

theorem encodeLoop_run (latitude longitude : ℚ) (precision : Int) :
    ∀ (fuel : Nat) (s : EncodeState), EncodeInv s → Contains s latitude longitude →
      ((5 * s.length + s.bitIndex + fuel : Nat) : Int) = 5 * precision →
      ∃ s', encodeLoop latitude longitude precision fuel s = some s' ∧ EncodeInv s' ∧
        Contains s' latitude longitude ∧ (s'.length : Int) = precision ∧ s'.bitIndex = 0 ∧
        s.buffer <+: s'.buffer := by
  intro fuel
  induction fuel with
  | zero =>
    intro s hinv hin hm
    have hbi : s.bitIndex ≤ 4 := hinv.1
    have h1 : (s.length : Int) = precision := by omega
    have h2 : s.bitIndex = 0 := by omega
    refine ⟨s, ?_, hinv, hin, h1, h2, List.prefix_refl _⟩
    unfold encodeLoop
    rw [if_neg (by omega)]
  | succ fuel ih =>
    intro s hinv hin hm
    have hbi : s.bitIndex ≤ 4 := hinv.1
    have hlt : (s.length : Int) < precision := by omega
    obtain ⟨s1, hs1, hinv1, hin1, hm1, hpre1⟩ := encodeBody_inv latitude longitude s hinv hin
    obtain ⟨s', hs', hinv', hin', hl', hb', hpre'⟩ := ih s1 hinv1 hin1 (by omega)
    refine ⟨s', ?_, hinv', hin', hl', hb', hpre1.trans hpre'⟩
    unfold encodeLoop
    rw [if_pos hlt, hs1, Option.some_bind, hs']

theorem CoordinateCheck_iff (latitude longitude : ℚ) :
    CoordinateCheck latitude longitude = true ↔
      (-90 ≤ latitude ∧ latitude ≤ 90 ∧ -180 ≤ longitude ∧ longitude ≤ 180) := by
  simp [CoordinateCheck]

/-- On valid arguments the encoder returns a string without an error; the
string has `precision` symbols of the alphabet, and the decoder's cell for it
contains the coordinate. -/
theorem EncodeGeoHash_spec (latitude longitude : ℚ) (precision : Int)
    (hlat : -90 ≤ latitude ∧ latitude ≤ 90) (hlng : -180 ≤ longitude ∧ longitude ≤ 180)
    (hp : 1 ≤ precision) :
    ∃ g, EncodeGeoHash latitude longitude precision = some (g, false) ∧
      (g.length : Int) = precision ∧ (∀ c ∈ g, c ∈ Base32) ∧
      (decodeLoop g).lat.1 ≤ latitude ∧ latitude ≤ (decodeLoop g).lat.2 ∧
      (decodeLoop g).lng.1 ≤ longitude ∧ longitude ≤ (decodeLoop g).lng.2 := by
  have hcc : CoordinateCheck latitude longitude = true :=
    (CoordinateCheck_iff _ _).2 ⟨hlat.1, hlat.2, hlng.1, hlng.2⟩
  have hin0 : Contains encodeInit latitude longitude := ⟨hlat.1, hlat.2, hlng.1, hlng.2⟩
  have hm0 : ((5 * encodeInit.length + encodeInit.bitIndex + 5 * precision.toNat : Nat) : Int)
      = 5 * precision := by
    simp only [encodeInit]; omega
  obtain ⟨s', hs', hinv', hin', hl', hb', _⟩ :=
    encodeLoop_run latitude longitude precision (5 * precision.toNat) encodeInit
      encodeInit_inv hin0 hm0
  obtain ⟨_, _, hlen, hmem, _, hag⟩ := hinv'
  have hagree := hag 0 (fun j hj => by omega)
  rw [hb'] at hagree
  obtain ⟨_, a2, a3⟩ := hagree
  simp only [List.take_zero, List.foldl_nil] at a2 a3
  obtain ⟨k1, k2, k3, k4⟩ := hin'
  refine ⟨s'.buffer, ?_, by rw [hlen]; exact hl', hmem, ?_, ?_, ?_, ?_⟩
  · unfold EncodeGeoHash
    rw [if_neg (by rw [hcc]; simp; omega), hs']
    rfl
  · rw [a2]; exact k1
  · rw [a2]; exact k2
  · rw [a3]; exact k3
  · rw [a3]; exact k4

/-! ## The decoder -/

theorem decodeChar_unfold (d : DecodeState) (c : Char) :
    decodeChar d c =
      decodeBit (byteSliceIndexOf Base32 c) (decodeBit (byteSliceIndexOf Base32 c)
        (decodeBit (byteSliceIndexOf Base32 c) (decodeBit (byteSliceIndexOf Base32 c)
          (decodeBit (byteSliceIndexOf Base32 c) d (Bits.getD 0 0)) (Bits.getD 1 0))
            (Bits.getD 2 0)) (Bits.getD 3 0)) (Bits.getD 4 0) := rfl

theorem bisect_two (interval : ℚ × ℚ) (x y : Bool) :
    bisect (bisect interval x) y
      = subCell interval (2 * (if x = true then 1 else 0) + (if y = true then 1 else 0)) 4 := by
  obtain ⟨lo, hi⟩ := interval
  cases x <;> cases y <;> refine Prod.ext ?_ ?_ <;> simp [bisect, subCell] <;> ring

theorem bisect_three (interval : ℚ × ℚ) (x y z : Bool) :
    bisect (bisect (bisect interval x) y) z
      = subCell interval (4 * (if x = true then 1 else 0) + 2 * (if y = true then 1 else 0)
          + (if z = true then 1 else 0)) 8 := by
  obtain ⟨lo, hi⟩ := interval
  cases x <;> cases y <;> cases z <;> refine Prod.ext ?_ ?_ <;> simp [bisect, subCell] <;> ring

theorem decodeChar_cell (d : DecodeState) (c : Char) :
    (decodeChar d c).IndexEven = (!d.IndexEven) ∧
    (decodeChar d c).lat
      = subCell d.lat (latRow d.IndexEven (byteSliceIndexOf Base32 c)) (latDiv d.IndexEven) ∧
    (decodeChar d c).lng
      = subCell d.lng (lngCol d.IndexEven (byteSliceIndexOf Base32 c)) (lngDiv d.IndexEven) ∧
    (decodeChar d c).latErr = d.latErr / latDiv d.IndexEven ∧
    (decodeChar d c).lngErr = d.lngErr / lngDiv d.IndexEven := by
  rw [decodeChar_unfold]
  unfold decodeBit
  simp only [refineInterval_eq_bisect]
  obtain ⟨e, lat, lng, e1, e2⟩ := d
  cases e <;> refine ⟨?_, ?_, ?_, ?_, ?_⟩ <;>
    simp only [Bool.not_false, Bool.not_true, Bool.false_eq_true, if_false, if_true,
      bisect_three] <;>
    (try simp only [bisect_two, latRow, lngCol, bitNat, latDiv, lngDiv, Bool.false_eq_true,
      if_false, if_true]) <;>
    (try push_cast) <;> (try ring)

theorem bitNat_le_one (idx : Int) (j : Nat) : bitNat idx j ≤ 1 := by
  unfold bitNat; split <;> omega

theorem latRow_lt (e : Bool) (idx : Int) : latRow e idx < latDiv e := by
  have h0 := bitNat_le_one idx 0
  have h1 := bitNat_le_one idx 1
  have h2 := bitNat_le_one idx 2
  have h3 := bitNat_le_one idx 3
  have h4 := bitNat_le_one idx 4
  cases e <;> simp only [latRow, latDiv, Bool.false_eq_true, if_false, if_true] <;> omega

theorem lngCol_lt (e : Bool) (idx : Int) : lngCol e idx < lngDiv e := by
  have h0 := bitNat_le_one idx 0
  have h1 := bitNat_le_one idx 1
  have h2 := bitNat_le_one idx 2
  have h3 := bitNat_le_one idx 3
  have h4 := bitNat_le_one idx 4
  cases e <;> simp only [lngCol, lngDiv, Bool.false_eq_true, if_false, if_true] <;> omega

theorem subCell_width (interval : ℚ × ℚ) (k n : Nat) (hn : 0 < n) :
    (subCell interval k n).2 - (subCell interval k n).1 = (interval.2 - interval.1) / n := by
  have : (n : ℚ) ≠ 0 := by positivity
  simp only [subCell]
  field_simp
  ring

theorem subCell_lower (interval : ℚ × ℚ) (k n : Nat) (hw : 0 ≤ interval.2 - interval.1) :
    interval.1 ≤ (subCell interval k n).1 := by
  simp only [subCell]
  have : 0 ≤ (k : ℚ) * (interval.2 - interval.1) / n := by positivity
  linarith

theorem subCell_upper (interval : ℚ × ℚ) (k n : Nat) (hk : k < n)
    (hw : 0 ≤ interval.2 - interval.1) :
    (subCell interval k n).2 ≤ interval.2 := by
  simp only [subCell]
  have hn : (0 : ℚ) < n := by
    have : 0 < n := by omega
    exact_mod_cast this
  have hk1 : ((k : ℚ) + 1) ≤ n := by exact_mod_cast hk
  have : ((k : ℚ) + 1) * (interval.2 - interval.1) / n ≤ interval.2 - interval.1 := by
    rw [div_le_iff₀ hn]
    nlinarith
  linarith

/-- What the decoder's variables hold after a string of `n` symbols. -/
theorem decodeLoop_facts (g : List Char) :
    (decodeLoop g).IndexEven = decide (g.length % 2 = 0) ∧
    (decodeLoop g).latErr = 90 / 2 ^ (5 * g.length / 2) ∧
    (decodeLoop g).lngErr = 180 / 2 ^ ((5 * g.length + 1) / 2) ∧
    (decodeLoop g).lat.2 - (decodeLoop g).lat.1 = 2 * (decodeLoop g).latErr ∧
    (decodeLoop g).lng.2 - (decodeLoop g).lng.1 = 2 * (decodeLoop g).lngErr ∧
    -90 ≤ (decodeLoop g).lat.1 ∧ (decodeLoop g).lat.2 ≤ 90 ∧
    -180 ≤ (decodeLoop g).lng.1 ∧ (decodeLoop g).lng.2 ≤ 180 := by
  induction g using List.reverseRecOn with
  | nil =>
    simp only [decodeLoop, List.foldl_nil, decodeInit, List.length_nil]
    norm_num
  | append_singleton g c ih =>
    obtain ⟨h1, h2, h3, h4, h5, h6, h7, h8, h9⟩ := ih
    obtain ⟨c1, c2, c3, c4, c5⟩ := decodeChar_cell (decodeLoop g) c
    have hlatErr : 0 < (decodeLoop g).latErr := by rw [h2]; positivity
    have hlngErr : 0 < (decodeLoop g).lngErr := by rw [h3]; positivity
    have hlatw : 0 ≤ (decodeLoop g).lat.2 - (decodeLoop g).lat.1 := by rw [h4]; linarith
    have hlngw : 0 ≤ (decodeLoop g).lng.2 - (decodeLoop g).lng.1 := by rw [h5]; linarith
    have hlatDiv : 0 < latDiv (decodeLoop g).IndexEven := by
      cases (decodeLoop g).IndexEven <;> decide
    have hlngDiv : 0 < lngDiv (decodeLoop g).IndexEven := by
      cases (decodeLoop g).IndexEven <;> decide
    rw [decodeLoop_snoc, List.length_append, List.length_singleton]
    refine ⟨?_, ?_, ?_, ?_, ?_, ?_, ?_, ?_, ?_⟩
    · rw [c1, h1]
      by_cases hp : g.length % 2 = 0
      · have : ¬ (g.length + 1) % 2 = 0 := by omega
        simp [hp, this]
      · have : (g.length + 1) % 2 = 0 := by omega
        simp [hp, this]
    · rw [c4, h1, h2]
      by_cases hp : g.length % 2 = 0
      · have : 5 * (g.length + 1) / 2 = 5 * g.length / 2 + 2 := by omega
        rw [this]
        simp only [hp, decide_True, latDiv, if_true]
        rw [pow_add]; push_cast; field_simp; ring
      · have : 5 * (g.length + 1) / 2 = 5 * g.length / 2 + 3 := by omega
        rw [this]
        simp only [hp, decide_False, latDiv, Bool.false_eq_true, if_false]
        rw [pow_add]; push_cast; field_simp; ring
    · rw [c5, h1, h3]
      by_cases hp : g.length % 2 = 0
      · have : (5 * (g.length + 1) + 1) / 2 = (5 * g.length + 1) / 2 + 3 := by omega
        rw [this]
        simp only [hp, decide_True, lngDiv, if_true]
        rw [pow_add]; push_cast; field_simp; ring
      · have : (5 * (g.length + 1) + 1) / 2 = (5 * g.length + 1) / 2 + 2 := by omega
        rw [this]
        simp only [hp, decide_False, lngDiv, Bool.false_eq_true, if_false]
        rw [pow_add]; push_cast; field_simp; ring
    · rw [c2, c4, subCell_width _ _ _ hlatDiv, h4]; ring
    · rw [c3, c5, subCell_width _ _ _ hlngDiv, h5]; ring
    · rw [c2]; exact le_trans h6 (subCell_lower _ _ _ hlatw)
    · rw [c2]; exact le_trans (subCell_upper _ _ _ (latRow_lt _ _) hlatw) h7
    · rw [c3]; exact le_trans h8 (subCell_lower _ _ _ hlngw)
    · rw [c3]; exact le_trans (subCell_upper _ _ _ (lngCol_lt _ _) hlngw) h9

/-! ## The returned slices -/

theorem DecodeGeoHash_lat (g : List Char) :
    (DecodeGeoHash g).1[0]! = (decodeLoop g).lat.1 ∧ (DecodeGeoHash g).1[1]! = (decodeLoop g).lat.2 ∧
    (DecodeGeoHash g).1[2]! = ((decodeLoop g).lat.1 + (decodeLoop g).lat.2) / 2 ∧
    (DecodeGeoHash g).1[3]! = (decodeLoop g).latErr :=
  ⟨rfl, rfl, rfl, rfl⟩

theorem DecodeGeoHash_lng (g : List Char) :
    (DecodeGeoHash g).2[0]! = (decodeLoop g).lng.1 ∧ (DecodeGeoHash g).2[1]! = (decodeLoop g).lng.2 ∧
    (DecodeGeoHash g).2[2]! = ((decodeLoop g).lng.1 + (decodeLoop g).lng.2) / 2 ∧
    (DecodeGeoHash g).2[3]! = (decodeLoop g).lngErr :=
  ⟨rfl, rfl, rfl, rfl⟩

theorem ceil_five_halves (n : Nat) : ⌈(5 * ((n : Int) : ℚ)) / 2⌉₊ = (5 * n + 1) / 2 := by
  rcases Nat.even_or_odd n with ⟨k, hk⟩ | ⟨k, hk⟩
  · subst hk
    have h1 : (5 * (((k + k : Nat) : Int) : ℚ)) / 2 = ((5 * k : Nat) : ℚ) := by push_cast; ring
    have h2 : (5 * (k + k) + 1) / 2 = 5 * k := by omega
    rw [h1, h2, Nat.ceil_natCast]
  · subst hk
    have h2 : (5 * (2 * k + 1) + 1) / 2 = 5 * k + 3 := by omega
    rw [h2, Nat.ceil_eq_iff (by omega)]
    constructor
    · push_cast; linarith
    · push_cast; linarith

theorem floor_five_halves (n : Nat) : ⌊(5 * ((n : Int) : ℚ)) / 2⌋₊ = 5 * n / 2 := by
  have h : (5 * ((n : Int) : ℚ)) / 2 = ((5 * n : Nat) : ℚ) / ((2 : Nat) : ℚ) := by push_cast; ring
  rw [h, Nat.floor_div_eq_div]

theorem land_neg_one_Bits : Int.land (-1) 16 = 16 ∧ Int.land (-1) 8 = 8 ∧ Int.land (-1) 4 = 4 ∧
    Int.land (-1) 2 = 2 ∧ Int.land (-1) 1 = 1 := by
  refine ⟨?_, ?_, ?_, ?_, ?_⟩ <;> with_unfolding_all decide

/-! ## One step of `calculateAdjacent` -/

theorem ToLower_append (a b : List Char) : ToLower (a ++ b) = ToLower a ++ ToLower b := by
  simp [ToLower]

theorem ToLower_length (a : List Char) : (ToLower a).length = a.length := by
  simp [ToLower]

theorem calculateAdjacent_nil (d : BaseDirection) : calculateAdjacent [] d = [] := by
  rw [calculateAdjacent]; simp

/-- One unfolding of `calculateAdjacent` on a string with last symbol `c`. -/
theorem calculateAdjacent_snoc (base : List Char) (c : Char) (d : BaseDirection) :
    calculateAdjacent (base ++ [c]) d =
      if onBorder (indexTypeOf (base.length + 1)) d c.toLower = true then
        if calculateAdjacent (ToLower base) d = [] then []
        else if byteSliceIndexOf (NEIGHBORS (indexTypeOf (base.length + 1)) d) c.toLower = -1
          then []
        else calculateAdjacent (ToLower base) d ++ [newLast (indexTypeOf (base.length + 1)) d c.toLower]
      else
        if byteSliceIndexOf (NEIGHBORS (indexTypeOf (base.length + 1)) d) c.toLower = -1 then []
        else ToLower base ++ [newLast (indexTypeOf (base.length + 1)) d c.toLower] := by
  rw [calculateAdjacent]
  have h1 : (ToLower (base ++ [c])).getD ((base ++ [c]).length - 1) (Char.ofNat 0) = c.toLower := by
    rw [ToLower_append, List.length_append, List.length_singleton, Nat.add_sub_cancel,
      List.getD_append_right _ _ _ _ (by rw [ToLower_length])]
    simp [ToLower]
  have h2 : (ToLower (base ++ [c])).take ((base ++ [c]).length - 1) = ToLower base := by
    rw [ToLower_append, List.length_append, List.length_singleton, Nat.add_sub_cancel,
      ← ToLower_length base, List.take_left']
    rfl
  simp only [h1, h2]
  simp only [List.length_append, List.length_singleton, Nat.add_one_ne_zero, if_false]
  unfold onBorder newLast indexTypeOf
  by_cases hb : (byteSliceIndexOf (BORDERS (if (base.length + 1) % 2 = 1 then ODD else EVEN) d)
      c.toLower != -1) = true
  · simp only [hb, if_true, true_and]
  · simp only [hb, if_false, false_and, Bool.false_eq_true]

/-! ## Facts about the adjacency tables -/

theorem Base32_toLower : ∀ c ∈ Base32, c.toLower = c := by
  decide

theorem ToLower_of_alphabet (g : List Char) (h : ∀ c ∈ g, c ∈ Base32) : ToLower g = g := by
  unfold ToLower
  conv_rhs => rw [← List.map_id g]
  exact List.map_congr_left (fun c hc => Base32_toLower c (h c hc))

set_option maxRecDepth 100000 in
theorem neighbor_found (t : IndexType) (d : BaseDirection) :
    ∀ c ∈ Base32, byteSliceIndexOf (NEIGHBORS t d) c ≠ -1 := by
  cases t <;> cases d <;> decide

set_option maxRecDepth 100000 in
theorem newLast_mem (t : IndexType) (d : BaseDirection) :
    ∀ c ∈ Base32, newLast t d c ∈ Base32 := by
  cases t <;> cases d <;> decide

set_option maxRecDepth 100000 in
theorem newLast_opposite (t : IndexType) (d : BaseDirection) :
    ∀ c ∈ Base32, newLast t (opposite d) (newLast t d c) = c := by
  cases t <;> cases d <;> decide

set_option maxRecDepth 100000 in
theorem onBorder_opposite (t : IndexType) (d : BaseDirection) :
    ∀ c ∈ Base32, onBorder t (opposite d) (newLast t d c) = onBorder t d c := by
  cases t <;> cases d <;> decide

set_option maxRecDepth 100000 in
theorem geometry_RIGHT (t : IndexType) : ∀ c ∈ Base32,
    latRow (indexEvenOf t) (byteSliceIndexOf Base32 (newLast t RIGHT c))
      = latRow (indexEvenOf t) (byteSliceIndexOf Base32 c) ∧
    (if onBorder t RIGHT c = true then
      lngCol (indexEvenOf t) (byteSliceIndexOf Base32 c) + 1 = lngDiv (indexEvenOf t) ∧
      lngCol (indexEvenOf t) (byteSliceIndexOf Base32 (newLast t RIGHT c)) = 0
    else
      lngCol (indexEvenOf t) (byteSliceIndexOf Base32 (newLast t RIGHT c))
        = lngCol (indexEvenOf t) (byteSliceIndexOf Base32 c) + 1) := by
  cases t <;> decide

set_option maxRecDepth 100000 in
theorem geometry_LEFT (t : IndexType) : ∀ c ∈ Base32,
    latRow (indexEvenOf t) (byteSliceIndexOf Base32 (newLast t LEFT c))
      = latRow (indexEvenOf t) (byteSliceIndexOf Base32 c) ∧
    (if onBorder t LEFT c = true then
      lngCol (indexEvenOf t) (byteSliceIndexOf Base32 c) = 0 ∧
      lngCol (indexEvenOf t) (byteSliceIndexOf Base32 (newLast t LEFT c)) + 1
        = lngDiv (indexEvenOf t)
    else
      lngCol (indexEvenOf t) (byteSliceIndexOf Base32 (newLast t LEFT c)) + 1
        = lngCol (indexEvenOf t) (byteSliceIndexOf Base32 c)) := by
  cases t <;> decide

set_option maxRecDepth 100000 in
theorem geometry_TOP (t : IndexType) : ∀ c ∈ Base32,
    lngCol (indexEvenOf t) (byteSliceIndexOf Base32 (newLast t TOP c))
      = lngCol (indexEvenOf t) (byteSliceIndexOf Base32 c) ∧
    (if onBorder t TOP c = true then
      latRow (indexEvenOf t) (byteSliceIndexOf Base32 c) + 1 = latDiv (indexEvenOf t) ∧
      latRow (indexEvenOf t) (byteSliceIndexOf Base32 (newLast t TOP c)) = 0
    else
      latRow (indexEvenOf t) (byteSliceIndexOf Base32 (newLast t TOP c))
        = latRow (indexEvenOf t) (byteSliceIndexOf Base32 c) + 1) := by
  cases t <;> decide

set_option maxRecDepth 100000 in
theorem geometry_BOTTOM (t : IndexType) : ∀ c ∈ Base32,
    lngCol (indexEvenOf t) (byteSliceIndexOf Base32 (newLast t BOTTOM c))
      = lngCol (indexEvenOf t) (byteSliceIndexOf Base32 c) ∧
    (if onBorder t BOTTOM c = true then
      latRow (indexEvenOf t) (byteSliceIndexOf Base32 c) = 0 ∧
      latRow (indexEvenOf t) (byteSliceIndexOf Base32 (newLast t BOTTOM c)) + 1
        = latDiv (indexEvenOf t)
    else
      latRow (indexEvenOf t) (byteSliceIndexOf Base32 (newLast t BOTTOM c)) + 1
        = latRow (indexEvenOf t) (byteSliceIndexOf Base32 c)) := by
  cases t <;> decide

/-! ## The recursion of `calculateAdjacent` -/

theorem calculateAdjacentDepth_snoc (n : Nat) (base : List Char) (c : Char)
    (d : BaseDirection) :
    calculateAdjacentDepth (n + 1) (base ++ [c]) d =
      if onBorder (indexTypeOf (base.length + 1)) d c.toLower = true then
        if calculateAdjacentDepth n (ToLower base) d = [] then []
        else if byteSliceIndexOf (NEIGHBORS (indexTypeOf (base.length + 1)) d) c.toLower = -1
          then []
        else calculateAdjacentDepth n (ToLower base) d
          ++ [newLast (indexTypeOf (base.length + 1)) d c.toLower]
      else
        if byteSliceIndexOf (NEIGHBORS (indexTypeOf (base.length + 1)) d) c.toLower = -1 then []
        else ToLower base ++ [newLast (indexTypeOf (base.length + 1)) d c.toLower] := by
  rw [calculateAdjacentDepth]
  have h1 : (ToLower (base ++ [c])).getD ((base ++ [c]).length - 1) (Char.ofNat 0) = c.toLower := by
    rw [ToLower_append, List.length_append, List.length_singleton, Nat.add_sub_cancel,
      List.getD_append_right _ _ _ _ (by rw [ToLower_length])]
    simp [ToLower]
  have h2 : (ToLower (base ++ [c])).take ((base ++ [c]).length - 1) = ToLower base := by
    rw [ToLower_append, List.length_append, List.length_singleton, Nat.add_sub_cancel,
      ← ToLower_length base, List.take_left']
    rfl
  simp only [h1, h2]
  simp only [List.length_append, List.length_singleton, Nat.add_one_ne_zero, if_false]
  unfold onBorder newLast indexTypeOf
  by_cases hb : (byteSliceIndexOf (BORDERS (if (base.length + 1) % 2 = 1 then ODD else EVEN) d)
      c.toLower != -1) = true
  · simp only [hb, if_true, true_and]
  · simp only [hb, if_false, false_and, Bool.false_eq_true]

/-- The recursion of `calculateAdjacent` is as deep as the string is long. -/
theorem calculateAdjacent_eq_depth (g : List Char) (d : BaseDirection) :
    calculateAdjacent g d = calculateAdjacentDepth g.length g d := by
  suffices h : ∀ (n : Nat) (g : List Char), g.length = n →
      calculateAdjacent g d = calculateAdjacentDepth n g d from h g.length g rfl
  intro n
  induction n with
  | zero =>
    intro g hg
    rw [List.length_eq_zero] at hg
    subst hg
    rw [calculateAdjacent_nil]; rfl
  | succ n ih =>
    intro g hg
    rcases List.eq_nil_or_concat g with h | ⟨base, c, h⟩
    · subst h; simp at hg
    · subst h
      have hb : base.length = n := by simpa using hg
      rw [List.concat_eq_append, calculateAdjacent_snoc, calculateAdjacentDepth_snoc,
        ih (ToLower base) (by rw [ToLower_length, hb])]

theorem calculateAdjacent_snoc_alphabet (base : List Char) (c : Char) (d : BaseDirection)
    (hbase : ∀ x ∈ base, x ∈ Base32) (hc : c ∈ Base32) :
    calculateAdjacent (base ++ [c]) d =
      if onBorder (indexTypeOf (base.length + 1)) d c = true then
        if calculateAdjacent base d = [] then []
        else calculateAdjacent base d ++ [newLast (indexTypeOf (base.length + 1)) d c]
      else base ++ [newLast (indexTypeOf (base.length + 1)) d c] := by
  rw [calculateAdjacent_snoc, ToLower_of_alphabet base hbase, Base32_toLower c hc]
  simp only [neighbor_found _ _ c hc, if_false]

/-- On a string over the alphabet `calculateAdjacent` returns the empty string
or a string over the alphabet of the same length. -/
theorem calculateAdjacent_shape (g : List Char) (d : BaseDirection)
    (hg : ∀ x ∈ g, x ∈ Base32) :
    calculateAdjacent g d = [] ∨
      ((calculateAdjacent g d).length = g.length ∧ ∀ x ∈ calculateAdjacent g d, x ∈ Base32) := by
  induction g using List.reverseRecOn with
  | nil => left; exact calculateAdjacent_nil d
  | append_singleton base c ih =>
    have hbase : ∀ x ∈ base, x ∈ Base32 := fun x hx => hg x (List.mem_append_left _ hx)
    have hc : c ∈ Base32 := hg c (List.mem_append_right _ (List.mem_singleton_self c))
    have hnew := newLast_mem (indexTypeOf (base.length + 1)) d c hc
    rw [calculateAdjacent_snoc_alphabet base c d hbase hc]
    split
    · split
      · left; rfl
      · rcases ih hbase with h | ⟨h1, h2⟩
        · contradiction
        · right
          refine ⟨by simp [h1], ?_⟩
          intro x hx
          rcases List.mem_append.mp hx with hx | hx
          · exact h2 x hx
          · rw [List.mem_singleton.mp hx]; exact hnew
    · right
      refine ⟨by simp, ?_⟩
      intro x hx
      rcases List.mem_append.mp hx with hx | hx
      · exact hbase x hx
      · rw [List.mem_singleton.mp hx]; exact hnew

/-! ## Cells of neighbouring strings -/

theorem indexEvenOf_indexTypeOf (n : Nat) :
    indexEvenOf (indexTypeOf (n + 1)) = decide (n % 2 = 0) := by
  unfold indexTypeOf
  by_cases h : n % 2 = 0
  · have : (n + 1) % 2 = 1 := by omega
    simp [h, this, indexEvenOf]
  · have : ¬ (n + 1) % 2 = 1 := by omega
    simp [h, this, indexEvenOf]

/-- The cell of `base ++ [c]` inside the cell of `base`. -/
theorem decodeLoop_snoc_cell (base : List Char) (c : Char) :
    (decodeLoop (base ++ [c])).lat
      = subCell (decodeLoop base).lat
          (latRow (indexEvenOf (indexTypeOf (base.length + 1))) (byteSliceIndexOf Base32 c))
          (latDiv (indexEvenOf (indexTypeOf (base.length + 1)))) ∧
    (decodeLoop (base ++ [c])).lng
      = subCell (decodeLoop base).lng
          (lngCol (indexEvenOf (indexTypeOf (base.length + 1))) (byteSliceIndexOf Base32 c))
          (lngDiv (indexEvenOf (indexTypeOf (base.length + 1)))) := by
  obtain ⟨_, c2, c3, _, _⟩ := decodeChar_cell (decodeLoop base) c
  rw [decodeLoop_snoc, c2, c3, indexEvenOf_indexTypeOf, (decodeLoop_facts base).1]
  exact ⟨rfl, rfl⟩

theorem latDiv_pos (e : Bool) : 0 < latDiv e := by cases e <;> decide

theorem lngDiv_pos (e : Bool) : 0 < lngDiv e := by cases e <;> decide

theorem subCell_fst_zero (interval : ℚ × ℚ) (n : Nat) : (subCell interval 0 n).1 = interval.1 := by
  simp [subCell]

theorem subCell_snd_last (interval : ℚ × ℚ) (k n : Nat) (h : k + 1 = n) :
    (subCell interval k n).2 = interval.2 := by
  have hn : ((k : ℚ) + 1) = n := by exact_mod_cast h
  have hn0 : (n : ℚ) ≠ 0 := by
    have : 0 < n := by omega
    positivity
  simp only [subCell]
  rw [hn, mul_div_cancel_left₀ _ hn0]
  ring

theorem subCell_fst_succ (interval : ℚ × ℚ) (k n : Nat) :
    (subCell interval (k + 1) n).1 = (subCell interval k n).2 := by
  simp [subCell]

theorem decodeLoop_lat_lt (g : List Char) : (decodeLoop g).lat.1 < (decodeLoop g).lat.2 := by
  obtain ⟨_, h2, _, h4, _⟩ := decodeLoop_facts g
  have : 0 < (decodeLoop g).latErr := by rw [h2]; positivity
  linarith

theorem decodeLoop_lng_lt (g : List Char) : (decodeLoop g).lng.1 < (decodeLoop g).lng.2 := by
  obtain ⟨_, _, h3, _, h5, _⟩ := decodeLoop_facts g
  have : 0 < (decodeLoop g).lngErr := by rw [h3]; positivity
  linarith

/-- A non-empty result of `calculateAdjacent` on a string over the alphabet
decodes to the neighbouring cell. -/
theorem calculateAdjacent_cell (g : List Char) (d : BaseDirection)
    (hg : ∀ x ∈ g, x ∈ Base32) (hh : calculateAdjacent g d ≠ []) :
    CellAdjacent d (decodeLoop g) (decodeLoop (calculateAdjacent g d)) := by
  induction g using List.reverseRecOn with
  | nil => exact absurd (calculateAdjacent_nil d) hh
  | append_singleton base c ih =>
    have hbase : ∀ x ∈ base, x ∈ Base32 := fun x hx => hg x (List.mem_append_left _ hx)
    have hc : c ∈ Base32 := hg c (List.mem_append_right _ (List.mem_singleton_self c))
    obtain ⟨g1, g2⟩ := decodeLoop_snoc_cell base c
    rw [calculateAdjacent_snoc_alphabet base c d hbase hc] at hh ⊢
    by_cases hb : onBorder (indexTypeOf (base.length + 1)) d c = true
    · rw [if_pos hb] at hh ⊢
      by_cases he : calculateAdjacent base d = []
      · rw [if_pos he] at hh; exact absurd rfl hh
      · rw [if_neg he]
        rcases calculateAdjacent_shape base d hbase with h | ⟨hlen, _⟩
        · exact absurd h he
        · have hprev := ih hbase he
          obtain ⟨h1, h2⟩ := decodeLoop_snoc_cell (calculateAdjacent base d)
            (newLast (indexTypeOf (base.length + 1)) d c)
          rw [hlen] at h1 h2
          cases d with
          | RIGHT =>
            obtain ⟨q1, q2⟩ := geometry_RIGHT (indexTypeOf (base.length + 1)) c hc
            rw [if_pos hb] at q2
            obtain ⟨p1, p2⟩ := hprev
            refine ⟨?_, ?_⟩
            · rw [h2, g2, q2.2, subCell_fst_zero, subCell_snd_last _ _ _ q2.1, p1]
            · rw [h1, g1, q1, p2]
          | LEFT =>
            obtain ⟨q1, q2⟩ := geometry_LEFT (indexTypeOf (base.length + 1)) c hc
            rw [if_pos hb] at q2
            obtain ⟨p1, p2⟩ := hprev
            refine ⟨?_, ?_⟩
            · rw [h2, g2, q2.1, subCell_fst_zero, subCell_snd_last _ _ _ q2.2, p1]
            · rw [h1, g1, q1, p2]
          | TOP =>
            obtain ⟨q1, q2⟩ := geometry_TOP (indexTypeOf (base.length + 1)) c hc
            rw [if_pos hb] at q2
            obtain ⟨p1, p2⟩ := hprev
            refine ⟨?_, ?_⟩
            · rw [h1, g1, q2.2, subCell_fst_zero, subCell_snd_last _ _ _ q2.1, p1]
            · rw [h2, g2, q1, p2]
          | BOTTOM =>
            obtain ⟨q1, q2⟩ := geometry_BOTTOM (indexTypeOf (base.length + 1)) c hc
            rw [if_pos hb] at q2
            obtain ⟨p1, p2⟩ := hprev
            refine ⟨?_, ?_⟩
            · rw [h1, g1, q2.1, subCell_fst_zero, subCell_snd_last _ _ _ q2.2, p1]
            · rw [h2, g2, q1, p2]
    · rw [if_neg hb]
      obtain ⟨h1, h2⟩ := decodeLoop_snoc_cell base (newLast (indexTypeOf (base.length + 1)) d c)
      cases d with
      | RIGHT =>
        obtain ⟨q1, q2⟩ := geometry_RIGHT (indexTypeOf (base.length + 1)) c hc
        rw [if_neg hb] at q2
        refine ⟨?_, ?_⟩
        · rw [h2, g2, q2, subCell_fst_succ]
        · rw [h1, g1, q1]
      | LEFT =>
        obtain ⟨q1, q2⟩ := geometry_LEFT (indexTypeOf (base.length + 1)) c hc
        rw [if_neg hb] at q2
        refine ⟨?_, ?_⟩
        · rw [h2, g2, ← q2, subCell_fst_succ]
        · rw [h1, g1, q1]
      | TOP =>
        obtain ⟨q1, q2⟩ := geometry_TOP (indexTypeOf (base.length + 1)) c hc
        rw [if_neg hb] at q2
        refine ⟨?_, ?_⟩
        · rw [h1, g1, q2, subCell_fst_succ]
        · rw [h2, g2, q1]
      | BOTTOM =>
        obtain ⟨q1, q2⟩ := geometry_BOTTOM (indexTypeOf (base.length + 1)) c hc
        rw [if_neg hb] at q2
        refine ⟨?_, ?_⟩
        · rw [h1, g1, ← q2, subCell_fst_succ]
        · rw [h2, g2, q1]

/-- Stepping to a neighbour and back in the opposite direction returns the
string, for strings over the alphabet. -/
theorem calculateAdjacent_inverse (g : List Char) (d : BaseDirection)
    (hg : ∀ x ∈ g, x ∈ Base32) (hh : calculateAdjacent g d ≠ []) :
    calculateAdjacent (calculateAdjacent g d) (opposite d) = g := by
  induction g using List.reverseRecOn with
  | nil => exact absurd (calculateAdjacent_nil d) hh
  | append_singleton base c ih =>
    have hbase : ∀ x ∈ base, x ∈ Base32 := fun x hx => hg x (List.mem_append_left _ hx)
    have hc : c ∈ Base32 := hg c (List.mem_append_right _ (List.mem_singleton_self c))
    have hnew := newLast_mem (indexTypeOf (base.length + 1)) d c hc
    have hinv := newLast_opposite (indexTypeOf (base.length + 1)) d c hc
    have hbor := onBorder_opposite (indexTypeOf (base.length + 1)) d c hc
    rw [calculateAdjacent_snoc_alphabet base c d hbase hc] at hh ⊢
    by_cases hb : onBorder (indexTypeOf (base.length + 1)) d c = true
    · rw [if_pos hb] at hh ⊢
      by_cases he : calculateAdjacent base d = []
      · rw [if_pos he] at hh; exact absurd rfl hh
      · rw [if_neg he]
        rcases calculateAdjacent_shape base d hbase with h | ⟨hlen, hmem⟩
        · exact absurd h he
        · have hback := ih hbase he
          rw [calculateAdjacent_snoc_alphabet _ _ _ hmem hnew, hlen, hbor, if_pos hb, hback,
            hinv]
          have hbne : base ≠ [] := by
            intro h0; rw [h0, calculateAdjacent_nil] at he; exact he rfl
          rw [if_neg hbne]
    · rw [if_neg hb]
      rw [calculateAdjacent_snoc_alphabet _ _ _ hbase hnew, hbor, if_neg hb, hinv]

/-! ## Lower-case letters -/

theorem isUpper_iff (c : Char) : c.isUpper = true ↔ 65 ≤ c.toNat ∧ c.toNat ≤ 90 := by
  simp only [Char.isUpper, Bool.and_eq_true, decide_eq_true_eq, ge_iff_le, UInt32.le_def,
    Char.toNat, UInt32.toNat]
  rfl

theorem toLower_of_not_isUpper (c : Char) (h : c.isUpper = false) : c.toLower = c := by
  have h' : ¬ (65 ≤ c.toNat ∧ c.toNat ≤ 90) := by
    rw [← isUpper_iff, h]; simp
  unfold Char.toLower
  simp only [ge_iff_le]
  rw [if_neg h']

theorem toLower_isUpper (c : Char) : c.toLower.isUpper = false := by
  by_cases h : 65 ≤ c.toNat ∧ c.toNat ≤ 90
  · unfold Char.toLower
    simp only [ge_iff_le]
    rw [if_pos h]
    obtain ⟨h1, h2⟩ := h
    generalize c.toNat = n at h1 h2
    interval_cases n <;> decide
  · have hu : c.isUpper = false := by
      rw [← Bool.not_eq_true, isUpper_iff]; exact h
    rw [toLower_of_not_isUpper c hu, hu]

theorem toLower_toLower (c : Char) : c.toLower.toLower = c.toLower :=
  toLower_of_not_isUpper _ (toLower_isUpper c)

theorem ToLower_ToLower (g : List Char) : ToLower (ToLower g) = ToLower g := by
  simp [ToLower, toLower_toLower]

/-! ## Lower-casing in `calculateAdjacent` -/

/-- The result of `calculateAdjacent` depends on its argument only through the
lower-cased string. -/
theorem calculateAdjacent_ToLower (g : List Char) (d : BaseDirection) :
    calculateAdjacent g d = calculateAdjacent (ToLower g) d := by
  rcases List.eq_nil_or_concat g with h | ⟨base, c, h⟩
  · subst h; rfl
  · subst h
    rw [List.concat_eq_append, ToLower_append]
    have hc : ToLower [c] = [c.toLower] := rfl
    rw [hc, calculateAdjacent_snoc, calculateAdjacent_snoc, toLower_toLower, ToLower_ToLower,
      ToLower_length]

set_option maxRecDepth 100000 in
theorem Base32_getD_isUpper (n : Nat) : (Base32.getD n (Char.ofNat 0)).isUpper = false := by
  by_cases h : n < 32
  · revert n
    decide
  · rw [List.getD_eq_default _ _ (by simpa [Base32] using h)]
    decide

/-- No symbol of a result of `calculateAdjacent` is an upper-case letter. -/
theorem calculateAdjacent_isUpper (g : List Char) (d : BaseDirection) :
    ∀ x ∈ calculateAdjacent g d, x.isUpper = false := by
  induction g using List.reverseRecOn with
  | nil => rw [calculateAdjacent_nil]; simp
  | append_singleton base c ih =>
    have hlow : ∀ x ∈ ToLower base, x.isUpper = false := by
      intro x hx
      simp only [ToLower, List.mem_map] at hx
      obtain ⟨y, _, rfl⟩ := hx
      exact toLower_isUpper y
    have hnew : (newLast (indexTypeOf (base.length + 1)) d c.toLower).isUpper = false :=
      Base32_getD_isUpper _
    rw [calculateAdjacent_snoc, ← calculateAdjacent_ToLower]
    intro x hx
    split at hx
    · split at hx
      · simp at hx
      · split at hx
        · simp at hx
        · rcases List.mem_append.mp hx with hx | hx
          · exact ih x hx
          · rw [List.mem_singleton.mp hx]; exact hnew
    · split at hx
      · simp at hx
      · rcases List.mem_append.mp hx with hx | hx
        · exact hlow x hx
        · rw [List.mem_singleton.mp hx]; exact hnew

/-! ## Symbols outside the alphabet in `calculateAdjacent` -/

theorem byteSliceIndexOfFrom_of_not_mem (k : Char) (l : List Char) (n : Nat) (h : k ∉ l) :
    byteSliceIndexOfFrom k l n = -1 := by
  induction l generalizing n with
  | nil => rfl
  | cons v rest ih =>
    simp only [List.mem_cons, not_or] at h
    simp only [byteSliceIndexOfFrom]
    rw [if_neg (fun hv => h.1 hv.symm)]
    exact ih (n + 1) h.2

theorem byteSliceIndexOfFrom_nonneg (k : Char) (l : List Char) (n : Nat) :
    byteSliceIndexOfFrom k l n = -1 ∨ (n : Int) ≤ byteSliceIndexOfFrom k l n := by
  induction l generalizing n with
  | nil => left; rfl
  | cons v rest ih =>
    simp only [byteSliceIndexOfFrom]
    split
    · right; exact le_refl _
    · rcases ih (n + 1) with h | h
      · left; exact h
      · right; omega

theorem NEIGHBORS_subset (t : IndexType) (d : BaseDirection) :
    ∀ x ∈ NEIGHBORS t d, x ∈ Base32 := by
  cases t <;> cases d <;> decide

/-- A last symbol outside the alphabet makes `calculateAdjacent` return the
empty string. -/
theorem calculateAdjacent_bad_last (base : List Char) (c : Char) (d : BaseDirection)
    (hc : c.toLower ∉ Base32) : calculateAdjacent (base ++ [c]) d = [] := by
  have hidx : byteSliceIndexOf (NEIGHBORS (indexTypeOf (base.length + 1)) d) c.toLower = -1 :=
    byteSliceIndexOfFrom_of_not_mem _ _ 0 (fun h => hc (NEIGHBORS_subset _ _ _ h))
  rw [calculateAdjacent_snoc, hidx]
  simp

/-! ## The lookup in `NEIGHBORS` -/

set_option maxRecDepth 100000 in
/-- Searching row `d` for a symbol and indexing `Base32` with the position found
gives the entry of the row of the opposite direction at the symbol's own index. -/
theorem newLast_eq_opposite_row (t : IndexType) (d : BaseDirection) :
    ∀ c ∈ Base32,
      (NEIGHBORS t (opposite d))[(byteSliceIndexOf Base32 c).toNat]? = some (newLast t d c) := by
  cases t <;> cases d <;> decide

set_option maxRecDepth 100000 in
theorem NEIGHBORS_newLast (t : IndexType) (d : BaseDirection) :
    ∀ c ∈ Base32,
      (NEIGHBORS t d)[(byteSliceIndexOf Base32 (newLast t d c)).toNat]? = some c := by
  cases t <;> cases d <;> decide

/-- The last symbol of a non-empty result on a string over the alphabet. -/
theorem calculateAdjacent_getLast (base : List Char) (c : Char) (d : BaseDirection)
    (hbase : ∀ x ∈ base, x ∈ Base32) (hc : c ∈ Base32)
    (hh : calculateAdjacent (base ++ [c]) d ≠ []) :
    (calculateAdjacent (base ++ [c]) d).getLast?
      = some (newLast (indexTypeOf (base.length + 1)) d c) := by
  rw [calculateAdjacent_snoc_alphabet base c d hbase hc] at hh ⊢
  split at hh
  · split at hh
    · exact absurd rfl hh
    · rw [if_pos (by assumption), if_neg (by assumption)]
      simp
  · rw [if_neg (by assumption)]
    simp

/-! ## Horizontal and vertical steps -/

set_option maxRecDepth 100000 in
theorem newLast_comm (t : IndexType) (v h : BaseDirection) (hv : v = TOP ∨ v = BOTTOM)
    (hh : h = LEFT ∨ h = RIGHT) :
    ∀ c ∈ Base32, newLast t h (newLast t v c) = newLast t v (newLast t h c) := by
  rcases hv with rfl | rfl <;> rcases hh with rfl | rfl <;> cases t <;> decide

set_option maxRecDepth 100000 in
theorem onBorder_after_vertical (t : IndexType) (v h : BaseDirection)
    (hv : v = TOP ∨ v = BOTTOM) (hh : h = LEFT ∨ h = RIGHT) :
    ∀ c ∈ Base32, onBorder t h (newLast t v c) = onBorder t h c := by
  rcases hv with rfl | rfl <;> rcases hh with rfl | rfl <;> cases t <;> decide

set_option maxRecDepth 100000 in
theorem onBorder_after_horizontal (t : IndexType) (v h : BaseDirection)
    (hv : v = TOP ∨ v = BOTTOM) (hh : h = LEFT ∨ h = RIGHT) :
    ∀ c ∈ Base32, onBorder t v (newLast t h c) = onBorder t v c := by
  rcases hv with rfl | rfl <;> rcases hh with rfl | rfl <;> cases t <;> decide

/-- One unfolding of `calculateAdjacent` on `x ++ [c]` for `x` as long as `base`. -/
theorem calculateAdjacent_snoc_same_length (base x : List Char) (c : Char) (d : BaseDirection)
    (hlen : x.length = base.length) (hx : ∀ y ∈ x, y ∈ Base32) (hc : c ∈ Base32) :
    calculateAdjacent (x ++ [c]) d =
      if onBorder (indexTypeOf (base.length + 1)) d c = true then
        if calculateAdjacent x d = [] then []
        else calculateAdjacent x d ++ [newLast (indexTypeOf (base.length + 1)) d c]
      else x ++ [newLast (indexTypeOf (base.length + 1)) d c] := by
  rw [calculateAdjacent_snoc_alphabet x c d hx hc, hlen]

/-- A vertical and a horizontal step commute on strings over the alphabet. -/
theorem calculateAdjacent_comm (g : List Char) (v h : BaseDirection)
    (hv : v = TOP ∨ v = BOTTOM) (hh : h = LEFT ∨ h = RIGHT) (hg : ∀ x ∈ g, x ∈ Base32) :
    calculateAdjacent (calculateAdjacent g v) h = calculateAdjacent (calculateAdjacent g h) v := by
  induction g using List.reverseRecOn with
  | nil => simp only [calculateAdjacent_nil]
  | append_singleton base c ih =>
    have hbase : ∀ x ∈ base, x ∈ Base32 := fun x hx => hg x (List.mem_append_left _ hx)
    have hc : c ∈ Base32 := hg c (List.mem_append_right _ (List.mem_singleton_self c))
    have ih' := ih hbase
    have hnv := newLast_mem (indexTypeOf (base.length + 1)) v c hc
    have hnh := newLast_mem (indexTypeOf (base.length + 1)) h c hc
    have hcomm := newLast_comm (indexTypeOf (base.length + 1)) v h hv hh c hc
    have hb1 := onBorder_after_vertical (indexTypeOf (base.length + 1)) v h hv hh c hc
    have hb2 := onBorder_after_horizontal (indexTypeOf (base.length + 1)) v h hv hh c hc
    rw [calculateAdjacent_snoc_alphabet base c v hbase hc,
      calculateAdjacent_snoc_alphabet base c h hbase hc]
    by_cases hbv : onBorder (indexTypeOf (base.length + 1)) v c = true
    · by_cases hbh : onBorder (indexTypeOf (base.length + 1)) h c = true
      · rw [if_pos hbv, if_pos hbh]
        by_cases hxv : calculateAdjacent base v = []
        · rw [if_pos hxv, calculateAdjacent_nil]
          by_cases hxh : calculateAdjacent base h = []
          · rw [if_pos hxh, calculateAdjacent_nil]
          · rw [if_neg hxh]
            rcases calculateAdjacent_shape base h hbase with e | ⟨l2, m2⟩
            · exact absurd e hxh
            · rw [calculateAdjacent_snoc_same_length base _ _ v l2 m2 hnh, hb2, if_pos hbv,
                ← ih', hxv, calculateAdjacent_nil, if_pos rfl]
        · rw [if_neg hxv]
          rcases calculateAdjacent_shape base v hbase with e | ⟨l1, m1⟩
          · exact absurd e hxv
          · rw [calculateAdjacent_snoc_same_length base _ _ h l1 m1 hnv, hb1, if_pos hbh]
            by_cases hxh : calculateAdjacent base h = []
            · rw [if_pos hxh, calculateAdjacent_nil, ih', hxh, calculateAdjacent_nil, if_pos rfl]
            · rw [if_neg hxh]
              rcases calculateAdjacent_shape base h hbase with e | ⟨l2, m2⟩
              · exact absurd e hxh
              · rw [calculateAdjacent_snoc_same_length base _ _ v l2 m2 hnh, hb2, if_pos hbv,
                  ih', hcomm]
      · rw [if_pos hbv, if_neg hbh,
          calculateAdjacent_snoc_alphabet base _ v hbase hnh, hb2, if_pos hbv]
        by_cases hxv : calculateAdjacent base v = []
        · rw [if_pos hxv, if_pos hxv, calculateAdjacent_nil]
        · rw [if_neg hxv, if_neg hxv]
          rcases calculateAdjacent_shape base v hbase with e | ⟨l1, m1⟩
          · exact absurd e hxv
          · rw [calculateAdjacent_snoc_same_length base _ _ h l1 m1 hnv, hb1, if_neg hbh, hcomm]
    · by_cases hbh : onBorder (indexTypeOf (base.length + 1)) h c = true
      · rw [if_neg hbv, if_pos hbh,
          calculateAdjacent_snoc_alphabet base _ h hbase hnv, hb1, if_pos hbh]
        by_cases hxh : calculateAdjacent base h = []
        · rw [if_pos hxh, if_pos hxh, calculateAdjacent_nil]
        · rw [if_neg hxh, if_neg hxh]
          rcases calculateAdjacent_shape base h hbase with e | ⟨l2, m2⟩
          · exact absurd e hxh
          · rw [calculateAdjacent_snoc_same_length base _ _ v l2 m2 hnh, hb2, if_neg hbv, hcomm]
      · rw [if_neg hbv, if_neg hbh,
          calculateAdjacent_snoc_alphabet base _ h hbase hnv, hb1, if_neg hbh,
          calculateAdjacent_snoc_alphabet base _ v hbase hnh, hb2, if_neg hbv, hcomm]

/-! ## More on the encoder loop -/

theorem encodeBisect_strict (latitude longitude : ℚ) (s s1 : EncodeState)
    (h : encodeBisect latitude longitude s = some s1) (hs : StrictLow s latitude longitude) :
    StrictLow s1 latitude longitude := by
  obtain ⟨h1, h2⟩ := hs
  unfold encodeBisect at h
  split at h
  · dsimp only at h
    split at h
    · rename_i hcmp
      cases hb : Bits[s.bitIndex]? with
      | none => rw [hb] at h; simp at h
      | some b =>
        rw [hb] at h
        simp only [Option.map_some', Option.some.injEq] at h
        subst h
        exact ⟨h1, Or.inl hcmp⟩
    · simp only [Option.some.injEq] at h
      subst h
      exact ⟨h1, h2⟩
  · dsimp only at h
    split at h
    · rename_i hcmp
      cases hb : Bits[s.bitIndex]? with
      | none => rw [hb] at h; simp at h
      | some b =>
        rw [hb] at h
        simp only [Option.map_some', Option.some.injEq] at h
        subst h
        exact ⟨Or.inl hcmp, h2⟩
    · simp only [Option.some.injEq] at h
      subst h
      exact ⟨h1, h2⟩

theorem encodeEmit_starts (s1 s' : EncodeState) (h : encodeEmit s1 = some s') :
    s'.latStart = s1.latStart ∧ s'.lngStart = s1.lngStart := by
  unfold encodeEmit at h
  dsimp only at h
  split at h
  · simp only [Option.some.injEq] at h
    subst h
    exact ⟨rfl, rfl⟩
  · cases hb : Base32[s1.ch]? with
    | none => rw [hb] at h; simp at h
    | some b =>
      rw [hb] at h
      simp only [Option.map_some', Option.some.injEq] at h
      subst h
      exact ⟨rfl, rfl⟩

theorem encodeBody_strict (latitude longitude : ℚ) (s s' : EncodeState)
    (h : encodeBody latitude longitude s = some s') (hs : StrictLow s latitude longitude) :
    StrictLow s' latitude longitude := by
  unfold encodeBody at h
  cases h1 : encodeBisect latitude longitude s with
  | none => rw [h1] at h; simp at h
  | some s1 =>
    rw [h1, Option.some_bind] at h
    have hs1 := encodeBisect_strict latitude longitude s s1 h1 hs
    obtain ⟨e1, e2⟩ := encodeEmit_starts s1 s' h
    unfold StrictLow at hs1 ⊢
    rw [e1, e2]
    exact hs1

/-- A property that every pass of the loop body keeps holds when the loop ends. -/
theorem encodeLoop_preserves (latitude longitude : ℚ) (precision : Int)
    (P : EncodeState → Prop)
    (hstep : ∀ s s', encodeBody latitude longitude s = some s' → P s → P s') :
    ∀ (fuel : Nat) (s s' : EncodeState),
      encodeLoop latitude longitude precision fuel s = some s' → P s → P s' := by
  intro fuel
  induction fuel with
  | zero =>
    intro s s' h hp
    unfold encodeLoop at h
    split at h
    · simp at h
    · simp only [Option.some.injEq] at h
      subst h; exact hp
  | succ fuel ih =>
    intro s s' h hp
    unfold encodeLoop at h
    split at h
    · cases hb : encodeBody latitude longitude s with
      | none => rw [hb] at h; simp at h
      | some s1 =>
        rw [hb, Option.some_bind] at h
        exact ih s1 s' h (hstep s s1 hb hp)
    · simp only [Option.some.injEq] at h
      subst h; exact hp

/-- On valid arguments the loop of `EncodeGeoHash` ends in a state between two
symbols whose buffer is the returned string. -/
theorem EncodeGeoHash_final (latitude longitude : ℚ) (precision : Int)
    (hlat : -90 ≤ latitude ∧ latitude ≤ 90) (hlng : -180 ≤ longitude ∧ longitude ≤ 180)
    (hp : 1 ≤ precision) :
    ∃ s', encodeLoop latitude longitude precision (5 * precision.toNat) encodeInit = some s' ∧
      EncodeGeoHash latitude longitude precision = some (s'.buffer, false) ∧
      (s'.length : Int) = precision ∧ s'.buffer.length = s'.length ∧
      (∀ c ∈ s'.buffer, c ∈ Base32) ∧ Agree s' (decodeLoop s'.buffer) ∧
      Contains s' latitude longitude := by
  have hcc : CoordinateCheck latitude longitude = true :=
    (CoordinateCheck_iff _ _).2 ⟨hlat.1, hlat.2, hlng.1, hlng.2⟩
  have hin0 : Contains encodeInit latitude longitude := ⟨hlat.1, hlat.2, hlng.1, hlng.2⟩
  have hm0 : ((5 * encodeInit.length + encodeInit.bitIndex + 5 * precision.toNat : Nat) : Int)
      = 5 * precision := by
    simp only [encodeInit]; omega
  obtain ⟨s', hs', hinv', hin', hl', hb', _⟩ :=
    encodeLoop_run latitude longitude precision (5 * precision.toNat) encodeInit
      encodeInit_inv hin0 hm0
  obtain ⟨_, _, hlen, hmem, _, hag⟩ := hinv'
  have hagree := hag 0 (fun j hj => by omega)
  rw [hb'] at hagree
  simp only [List.take_zero, List.foldl_nil] at hagree
  refine ⟨s', hs', ?_, hl', hlen, hmem, hagree, hin'⟩
  unfold EncodeGeoHash
  rw [if_neg (by rw [hcc]; simp; omega), hs']
  rfl

/-- Running the loop for a larger precision passes through the state in which
the loop for a smaller precision ends. -/
theorem encodeLoop_split (latitude longitude : ℚ) (p q : Int) (hpq : p ≤ q) :
    ∀ (fuel1 fuel2 : Nat) (s : EncodeState), EncodeInv s → Contains s latitude longitude →
      ((5 * s.length + s.bitIndex + fuel1 : Nat) : Int) = 5 * p →
      encodeLoop latitude longitude q (fuel1 + fuel2) s
        = (encodeLoop latitude longitude p fuel1 s).bind (encodeLoop latitude longitude q fuel2) := by
  intro fuel1
  induction fuel1 with
  | zero =>
    intro fuel2 s hinv _ hm
    have hbi : s.bitIndex ≤ 4 := hinv.1
    have h1 : ¬ (s.length : Int) < p := by omega
    have h0 : encodeLoop latitude longitude p 0 s = some s := by
      simp only [encodeLoop, if_neg h1]
    rw [Nat.zero_add, h0, Option.some_bind]
  | succ fuel1 ih =>
    intro fuel2 s hinv hin hm
    have hbi : s.bitIndex ≤ 4 := hinv.1
    have hlt : (s.length : Int) < p := by omega
    have hltq : (s.length : Int) < q := by omega
    obtain ⟨s1, hs1, hinv1, hin1, hm1, _⟩ := encodeBody_inv latitude longitude s hinv hin
    have e : fuel1 + 1 + fuel2 = (fuel1 + fuel2) + 1 := by omega
    have hL : encodeLoop latitude longitude q (fuel1 + fuel2 + 1) s
        = encodeLoop latitude longitude q (fuel1 + fuel2) s1 := by
      simp only [encodeLoop, if_pos hltq, hs1, Option.some_bind]
    have hR : encodeLoop latitude longitude p (fuel1 + 1) s
        = encodeLoop latitude longitude p fuel1 s1 := by
      simp only [encodeLoop, if_pos hlt, hs1, Option.some_bind]
    rw [e, hL, hR]
    exact ih fuel2 s1 hinv1 hin1 (by omega)

/-- The string for a smaller precision is a prefix of the string for a larger one. -/
theorem EncodeGeoHash_prefix (latitude longitude : ℚ) (p q : Int)
    (hlat : -90 ≤ latitude ∧ latitude ≤ 90) (hlng : -180 ≤ longitude ∧ longitude ≤ 180)
    (hp : 1 ≤ p) (hpq : p ≤ q) :
    ∃ gp gq, EncodeGeoHash latitude longitude p = some (gp, false) ∧
      EncodeGeoHash latitude longitude q = some (gq, false) ∧ gp <+: gq := by
  have hcc : CoordinateCheck latitude longitude = true :=
    (CoordinateCheck_iff _ _).2 ⟨hlat.1, hlat.2, hlng.1, hlng.2⟩
  have hin0 : Contains encodeInit latitude longitude := ⟨hlat.1, hlat.2, hlng.1, hlng.2⟩
  have hm0 : ((5 * encodeInit.length + encodeInit.bitIndex + 5 * p.toNat : Nat) : Int)
      = 5 * p := by
    simp only [encodeInit]; omega
  obtain ⟨sp, hsp, hinvp, hinp, hlp, hbp, _⟩ :=
    encodeLoop_run latitude longitude p (5 * p.toNat) encodeInit encodeInit_inv hin0 hm0
  have hmq : ((5 * sp.length + sp.bitIndex + (5 * q.toNat - 5 * p.toNat) : Nat) : Int)
      = 5 * q := by
    rw [hbp]; omega
  obtain ⟨sq, hsq, _, _, _, _, hpre⟩ :=
    encodeLoop_run latitude longitude q (5 * q.toNat - 5 * p.toNat) sp hinvp hinp hmq
  have hsplit := encodeLoop_split latitude longitude p q hpq (5 * p.toNat)
    (5 * q.toNat - 5 * p.toNat) encodeInit encodeInit_inv hin0 hm0
  have hfuel : 5 * p.toNat + (5 * q.toNat - 5 * p.toNat) = 5 * q.toNat := by omega
  rw [hfuel, hsp, Option.some_bind, hsq] at hsplit
  refine ⟨sp.buffer, sq.buffer, ?_, ?_, hpre⟩
  · unfold EncodeGeoHash
    rw [if_neg (by rw [hcc]; simp; omega), hsp]
    rfl
  · unfold EncodeGeoHash
    rw [if_neg (by rw [hcc]; simp; omega), hsplit]
    rfl

/-! ## Cells of different strings -/

set_option maxRecDepth 1000000 in
theorem symbol_of_row_col (e : Bool) : ∀ c ∈ Base32, ∀ c' ∈ Base32,
    latRow e (byteSliceIndexOf Base32 c) = latRow e (byteSliceIndexOf Base32 c') →
    lngCol e (byteSliceIndexOf Base32 c) = lngCol e (byteSliceIndexOf Base32 c') → c = c' := by
  cases e <;> decide

theorem subCell_index_unique (interval : ℚ × ℚ) (hlt : interval.1 < interval.2) (k k' n : Nat)
    (hn : 0 < n) (x : ℚ)
    (h1 : (subCell interval k n).1 < x) (h2 : x < (subCell interval k n).2)
    (h3 : (subCell interval k' n).1 ≤ x) (h4 : x ≤ (subCell interval k' n).2) : k' = k := by
  have hn' : (0 : ℚ) < n := by exact_mod_cast hn
  have hu : 0 < (interval.2 - interval.1) / n := div_pos (by linarith) hn'
  have e : ∀ a : ℚ, a * (interval.2 - interval.1) / n = a * ((interval.2 - interval.1) / n) :=
    fun a => by ring
  simp only [subCell, e] at h1 h2 h3 h4
  by_contra hne
  rcases Nat.lt_or_gt_of_ne hne with h | h
  · have hc : ((k' : ℚ) + 1) ≤ k := by exact_mod_cast h
    have := mul_le_mul_of_nonneg_right hc hu.le
    linarith
  · have hc : ((k : ℚ) + 1) ≤ k' := by exact_mod_cast h
    have := mul_le_mul_of_nonneg_right hc hu.le
    linarith

/-- Two strings over the alphabet of the same length are equal when a point
strictly inside the cell of the first lies in the closed cell of the second. -/
theorem cell_unique (g : List Char) : ∀ (g' : List Char) (x y : ℚ),
    g'.length = g.length → (∀ c ∈ g, c ∈ Base32) → (∀ c ∈ g', c ∈ Base32) →
    (decodeLoop g).lat.1 < x → x < (decodeLoop g).lat.2 →
    (decodeLoop g).lng.1 < y → y < (decodeLoop g).lng.2 →
    (decodeLoop g').lat.1 ≤ x → x ≤ (decodeLoop g').lat.2 →
    (decodeLoop g').lng.1 ≤ y → y ≤ (decodeLoop g').lng.2 → g' = g := by
  induction g using List.reverseRecOn with
  | nil =>
    intro g' x y hlen _ _ _ _ _ _ _ _ _ _
    exact List.length_eq_zero.mp hlen
  | append_singleton base c ih =>
    intro g' x y hlen hg hg' a1 a2 a3 a4 b1 b2 b3 b4
    rcases List.eq_nil_or_concat g' with h | ⟨base', c', h⟩
    · subst h; simp at hlen
    · subst h
      rw [List.concat_eq_append] at hlen hg' b1 b2 b3 b4 ⊢
      have hl : base'.length = base.length := by simpa using hlen
      have hbase : ∀ z ∈ base, z ∈ Base32 := fun z hz => hg z (List.mem_append_left _ hz)
      have hc : c ∈ Base32 := hg c (List.mem_append_right _ (List.mem_singleton_self c))
      have hbase' : ∀ z ∈ base', z ∈ Base32 := fun z hz => hg' z (List.mem_append_left _ hz)
      have hc' : c' ∈ Base32 := hg' c' (List.mem_append_right _ (List.mem_singleton_self c'))
      obtain ⟨p1, p2⟩ := decodeLoop_snoc_cell base c
      obtain ⟨q1, q2⟩ := decodeLoop_snoc_cell base' c'
      rw [hl] at q1 q2
      rw [p1] at a1 a2
      rw [p2] at a3 a4
      rw [q1] at b1 b2
      rw [q2] at b3 b4
      have wlat := decodeLoop_lat_lt base
      have wlng := decodeLoop_lng_lt base
      have wlat' := decodeLoop_lat_lt base'
      have wlng' := decodeLoop_lng_lt base'
      have hbb : base' = base := by
        refine ih base' x y hl hbase hbase' ?_ ?_ ?_ ?_ ?_ ?_ ?_ ?_
        · exact lt_of_le_of_lt (subCell_lower _ _ _ (by linarith)) a1
        · exact lt_of_lt_of_le a2 (subCell_upper _ _ _ (latRow_lt _ _) (by linarith))
        · exact lt_of_le_of_lt (subCell_lower _ _ _ (by linarith)) a3
        · exact lt_of_lt_of_le a4 (subCell_upper _ _ _ (lngCol_lt _ _) (by linarith))
        · exact le_trans (subCell_lower _ _ _ (by linarith)) b1
        · exact le_trans b2 (subCell_upper _ _ _ (latRow_lt _ _) (by linarith))
        · exact le_trans (subCell_lower _ _ _ (by linarith)) b3
        · exact le_trans b4 (subCell_upper _ _ _ (lngCol_lt _ _) (by linarith))
      subst hbb
      have hrow := subCell_index_unique _ wlat _ _ _ (latDiv_pos _) x a1 a2 b1 b2
      have hcol := subCell_index_unique _ wlng _ _ _ (lngDiv_pos _) y a3 a4 b3 b4
      rw [symbol_of_row_col _ c hc c' hc' hrow.symm hcol.symm]

theorem neighborIndex_range (t : IndexType) (d : BaseDirection) (c : Char) :
    byteSliceIndexOf (NEIGHBORS t d) c = -1 ∨
      (0 ≤ byteSliceIndexOf (NEIGHBORS t d) c ∧ byteSliceIndexOf (NEIGHBORS t d) c < 32) := by
  have hlt := byteSliceIndexOfFrom_lt c (NEIGHBORS t d) 0
  rw [NEIGHBORS_length] at hlt
  rcases byteSliceIndexOfFrom_nonneg c (NEIGHBORS t d) 0 with h | h
  · left; exact h
  · right
    unfold byteSliceIndexOf
    constructor
    · exact_mod_cast h
    · exact_mod_cast hlt

/-! ## Rounding to float64 -/

/-- The rounding on three known doubles: `1/3` and `1/10` round to the doubles
`0x3FD5555555555555` and `0x3FB999999999999A`, and `2^53 + 1`, halfway between
two doubles, rounds to the even one, `2^53`. -/
theorem roundFloat64_samples :
    roundFloat64 (1 / 3) = 6004799503160661 / 18014398509481984 ∧
    roundFloat64 (1 / 10) = 3602879701896397 / 36028797018963968 ∧
    roundFloat64 9007199254740993 = 9007199254740992 ∧
    roundFloat64 9007199254740995 = 9007199254740996 ∧
    roundFloat64 (-45 / 8) = -45 / 8 := by
  decide!

/-! ## The float64 decoder on short strings -/

theorem toLower_ascii (c : Char) (h : c.toNat < 128) : c.toLower.toNat < 128 := by
  by_cases hu : 65 ≤ c.toNat ∧ c.toNat ≤ 90
  · unfold Char.toLower
    simp only [ge_iff_le]
    rw [if_pos hu]
    obtain ⟨h1, h2⟩ := hu
    generalize c.toNat = n at h1 h2
    interval_cases n <;> decide
  · have hu' : c.isUpper = false := by
      rw [← Bool.not_eq_true, isUpper_iff]; exact hu
    rw [toLower_of_not_isUpper c hu']; exact h

theorem ToLower_ascii (g : List Char) (hg : ∀ c ∈ g, c.toNat < 128) :
    ∀ c ∈ ToLower g, c.toNat < 128 := by
  intro c hc
  simp only [ToLower, List.mem_map] at hc
  obtain ⟨y, hy, rfl⟩ := hc
  exact toLower_ascii y (hg y hy)

set_option maxRecDepth 100000 in
theorem Base32_getD_ascii (n : Nat) : (Base32.getD n (Char.ofNat 0)).toNat < 128 := by
  by_cases h : n < 32
  · revert n
    decide
  · rw [List.getD_eq_default _ _ (by simpa [Base32] using h)]
    decide

/-- The result of `calculateAdjacent` on an ASCII string is an ASCII string. -/
theorem calculateAdjacent_ascii (g : List Char) (d : BaseDirection) :
    (∀ c ∈ g, c.toNat < 128) → ∀ x ∈ calculateAdjacent g d, x.toNat < 128 := by
  induction g using List.reverseRecOn with
  | nil => intro _; rw [calculateAdjacent_nil]; simp
  | append_singleton base c ih =>
    intro hg
    have hbase : ∀ x ∈ base, x.toNat < 128 := fun x hx => hg x (List.mem_append_left _ hx)
    have hlow := ToLower_ascii base hbase
    have hnew : (newLast (indexTypeOf (base.length + 1)) d c.toLower).toNat < 128 :=
      Base32_getD_ascii _
    rw [calculateAdjacent_snoc, ← calculateAdjacent_ToLower]
    intro x hx
    split at hx
    · split at hx
      · simp at hx
      · split at hx
        · simp at hx
        · rcases List.mem_append.mp hx with hx | hx
          · exact ih hbase x hx
          · rw [List.mem_singleton.mp hx]; exact hnew
    · split at hx
      · simp at hx
      · rcases List.mem_append.mp hx with hx | hx
        · exact hlow x hx
        · rw [List.mem_singleton.mp hx]; exact hnew

/-- On an ASCII string no index is out of range, and `calculateAdjacent` is the
function the code computes. -/
theorem calculateAdjacentOpt_ascii (lower : List Char → List Char)
    (hlower : ∀ s : List Char, (∀ c ∈ s, c.toNat < 128) → lower s = ToLower s)
    (d : BaseDirection) : ∀ (n : Nat) (g : List Char), g.length = n →
    (∀ c ∈ g, c.toNat < 128) → calculateAdjacentOpt lower g d = some (calculateAdjacent g d) := by
  intro n
  induction n using Nat.strong_induction_on with
  | _ n ih =>
    intro g hn hg
    rcases List.eq_nil_or_concat g with h | ⟨base, c, h⟩
    · subst h
      rw [calculateAdjacentOpt, calculateAdjacent_nil]; simp
    · subst h
      rw [List.concat_eq_append] at hn hg ⊢
      have hbase : ∀ x ∈ base, x.toNat < 128 := fun x hx => hg x (List.mem_append_left _ hx)
      have hrec : calculateAdjacentOpt lower (ToLower base) d
          = some (calculateAdjacent (ToLower base) d) :=
        ih base.length (by rw [← hn]; simp) (ToLower base) (ToLower_length base)
          (ToLower_ascii base hbase)
      have h1 : (ToLower (base ++ [c]))[(base ++ [c]).length - 1]? = some c.toLower := by
        rw [ToLower_append, List.length_append, List.length_singleton, Nat.add_sub_cancel,
          List.getElem?_append_right (by rw [ToLower_length])]
        simp [ToLower]
      have h2 : (ToLower (base ++ [c])).take ((base ++ [c]).length - 1) = ToLower base := by
        rw [ToLower_append, List.length_append, List.length_singleton, Nat.add_sub_cancel,
          ← ToLower_length base, List.take_left']
        rfl
      have h3 : Base32[(byteSliceIndexOf (NEIGHBORS (indexTypeOf (base.length + 1)) d)
          c.toLower).toNat]? = some (newLast (indexTypeOf (base.length + 1)) d c.toLower) := by
        unfold newLast
        rw [List.getElem?_eq_getElem (neighborIndex_lt _ _ _), List.getD_eq_getElem _ _ (neighborIndex_lt _ _ _)]
      rw [calculateAdjacentOpt, hlower _ hg, calculateAdjacent_snoc]
      simp only [h1, h2]
      simp only [List.length_append, List.length_singleton, Nat.add_one_ne_zero, if_false]
      unfold onBorder
      unfold indexTypeOf at h3 ⊢
      generalize (if (base.length + 1) % 2 = 1 then ODD else EVEN) = t at h3 ⊢
      by_cases hb : (byteSliceIndexOf (BORDERS t d) c.toLower != -1) = true <;>
        by_cases hi : byteSliceIndexOf (NEIGHBORS t d) c.toLower = -1 <;>
        by_cases hnil : calculateAdjacent (ToLower base) d = [] <;>
        simp [hb, hi, hnil, hrec, h3]


/-- On an ASCII string `GetAdjacentGridGeoHash` is the function the code
computes. -/
theorem GetAdjacentGridGeoHashOpt_ascii (lower : List Char → List Char)
    (hlower : ∀ s : List Char, (∀ c ∈ s, c.toNat < 128) → lower s = ToLower s)
    (g : List Char) (hg : ∀ c ∈ g, c.toNat < 128) :
    GetAdjacentGridGeoHashOpt lower g = some (GetAdjacentGridGeoHash g) := by
  have h1 : ∀ d, calculateAdjacentOpt lower g d = some (calculateAdjacent g d) :=
    fun d => calculateAdjacentOpt_ascii lower hlower d _ g rfl hg
  have h2 : ∀ d d', calculateAdjacentOpt lower (calculateAdjacent g d) d'
      = some (calculateAdjacent (calculateAdjacent g d) d') :=
    fun d d' => calculateAdjacentOpt_ascii lower hlower d' _ _ rfl (calculateAdjacent_ascii g d hg)
  simp only [GetAdjacentGridGeoHashOpt, GetAdjacentGridGeoHash, h1, h2, Option.bind_eq_bind,
    Option.some_bind, Option.pure_def]

/-- The run-time panic of `calculateAdjacent` on the Kelvin sign: the lower-cased
string has one byte, and the code reads it at index 2. -/
theorem calculateAdjacentOpt_kelvinSign (lower : List Char → List Char)
    (hkelvin : lower kelvinSign = ['k']) (d : BaseDirection) :
    calculateAdjacentOpt lower kelvinSign d = none := by
  rw [calculateAdjacentOpt, hkelvin]
  simp [kelvinSign]

theorem lowerSample_ascii (s : List Char) (hs : ∀ c ∈ s, c.toNat < 128) :
    lowerSample s = ToLower s := by
  unfold lowerSample
  rw [if_neg]
  intro h
  have := hs (Char.ofNat 0xE2) (by rw [h]; simp [kelvinSign])
  revert this
  decide

theorem lowerSample_kelvinSign : lowerSample kelvinSign = ['k'] := by
  simp [lowerSample]

/-! ## The claims -/

/-- C1 (round-trip bounding). For every latitude in [-90, 90], longitude in
[-180, 180] and precision at least 1, `EncodeGeoHash` returns a string `g` and
no error, and the two intervals that `DecodeGeoHash g` returns contain the
coordinate: `latI[0] ≤ lat ≤ latI[1]` and `lngI[0] ≤ lng ≤ lngI[1]`. -/
theorem C1_roundtrip_bounding (latitude longitude : ℚ) (precision : Int)
    (hlat : -90 ≤ latitude ∧ latitude ≤ 90) (hlng : -180 ≤ longitude ∧ longitude ≤ 180)
    (hp : 1 ≤ precision) :
    ∃ g, EncodeGeoHash latitude longitude precision = some (g, false) ∧
      (DecodeGeoHash g).1[0]! ≤ latitude ∧ latitude ≤ (DecodeGeoHash g).1[1]! ∧
      (DecodeGeoHash g).2[0]! ≤ longitude ∧ longitude ≤ (DecodeGeoHash g).2[1]! := by
  obtain ⟨g, hg, _, _, h1, h2, h3, h4⟩ := EncodeGeoHash_spec latitude longitude precision hlat hlng hp
  exact ⟨g, hg, h1, h2, h3, h4⟩

/-- C1 at latitude 39.928167, longitude 116.389550, precision 4. -/
theorem C1_roundtrip_bounding_witness :
    ((-90 : ℚ) ≤ 39928167 / 1000000 ∧ (39928167 / 1000000 : ℚ) ≤ 90) ∧
    ((-180 : ℚ) ≤ 11638955 / 100000 ∧ (11638955 / 100000 : ℚ) ≤ 180) ∧ (1 : Int) ≤ 4 ∧
    ∃ g, EncodeGeoHash (39928167 / 1000000) (11638955 / 100000) 4 = some (g, false) ∧
      (DecodeGeoHash g).1[0]! ≤ 39928167 / 1000000 ∧
      (39928167 / 1000000 : ℚ) ≤ (DecodeGeoHash g).1[1]! ∧
      (DecodeGeoHash g).2[0]! ≤ 11638955 / 100000 ∧
      (11638955 / 100000 : ℚ) ≤ (DecodeGeoHash g).2[1]! :=
  ⟨by norm_num, by norm_num, by norm_num,
    C1_roundtrip_bounding (39928167 / 1000000) (11638955 / 100000) 4
      (by norm_num) (by norm_num) (by norm_num)⟩

/-- C2 (geographic adjacency). For every non-empty string `g` over the alphabet
and every direction `d`, if `h = calculateAdjacent g d` is non-empty then the
decoded cell of `h` touches the decoded cell of `g` on the side `d`: for `TOP`
`latH[0] = latG[1]` and the longitude bounds are equal; for `BOTTOM`
`latH[1] = latG[0]` and the longitude bounds are equal; for `RIGHT`
`lngH[0] = lngG[1]` and the latitude bounds are equal; for `LEFT`
`lngH[1] = lngG[0]` and the latitude bounds are equal. -/
theorem C2_adjacent_cell (g : List Char) (d : BaseDirection) (_hne : g ≠ [])
    (hg : ∀ x ∈ g, x ∈ Base32) (hh : calculateAdjacent g d ≠ []) :
    (d = TOP →
      (DecodeGeoHash (calculateAdjacent g d)).1[0]! = (DecodeGeoHash g).1[1]! ∧
      (DecodeGeoHash (calculateAdjacent g d)).2[0]! = (DecodeGeoHash g).2[0]! ∧
      (DecodeGeoHash (calculateAdjacent g d)).2[1]! = (DecodeGeoHash g).2[1]!) ∧
    (d = BOTTOM →
      (DecodeGeoHash (calculateAdjacent g d)).1[1]! = (DecodeGeoHash g).1[0]! ∧
      (DecodeGeoHash (calculateAdjacent g d)).2[0]! = (DecodeGeoHash g).2[0]! ∧
      (DecodeGeoHash (calculateAdjacent g d)).2[1]! = (DecodeGeoHash g).2[1]!) ∧
    (d = RIGHT →
      (DecodeGeoHash (calculateAdjacent g d)).2[0]! = (DecodeGeoHash g).2[1]! ∧
      (DecodeGeoHash (calculateAdjacent g d)).1[0]! = (DecodeGeoHash g).1[0]! ∧
      (DecodeGeoHash (calculateAdjacent g d)).1[1]! = (DecodeGeoHash g).1[1]!) ∧
    (d = LEFT →
      (DecodeGeoHash (calculateAdjacent g d)).2[1]! = (DecodeGeoHash g).2[0]! ∧
      (DecodeGeoHash (calculateAdjacent g d)).1[0]! = (DecodeGeoHash g).1[0]! ∧
      (DecodeGeoHash (calculateAdjacent g d)).1[1]! = (DecodeGeoHash g).1[1]!) := by
  have hcell := calculateAdjacent_cell g d hg hh
  obtain ⟨a0, a1, _, _⟩ := DecodeGeoHash_lat g
  obtain ⟨b0, b1, _, _⟩ := DecodeGeoHash_lng g
  obtain ⟨a0', a1', _, _⟩ := DecodeGeoHash_lat (calculateAdjacent g d)
  obtain ⟨b0', b1', _, _⟩ := DecodeGeoHash_lng (calculateAdjacent g d)
  rw [a0, a1, b0, b1, a0', a1', b0', b1']
  refine ⟨?_, ?_, ?_, ?_⟩ <;> intro hd <;> rw [hd] at hcell <;> obtain ⟨p1, p2⟩ := hcell <;>
    rw [hd] <;> exact ⟨p1, by rw [p2], by rw [p2]⟩

set_option maxRecDepth 100000 in
/-- C2 at `wx4g`, whose neighbours are `wx4u` (top), `wx55` (right), `wx4f`
(bottom) and `wx4e` (left); the theorem is applied for the direction `TOP`. -/
theorem C2_adjacent_cell_witness :
    calculateAdjacent "wx4g".toList TOP = "wx4u".toList ∧
    calculateAdjacent "wx4g".toList RIGHT = "wx55".toList ∧
    calculateAdjacent "wx4g".toList BOTTOM = "wx4f".toList ∧
    calculateAdjacent "wx4g".toList LEFT = "wx4e".toList ∧
    (DecodeGeoHash (calculateAdjacent "wx4g".toList TOP)).1[0]! = (DecodeGeoHash "wx4g".toList).1[1]! ∧
    (DecodeGeoHash (calculateAdjacent "wx4g".toList TOP)).2[0]! = (DecodeGeoHash "wx4g".toList).2[0]! ∧
    (DecodeGeoHash (calculateAdjacent "wx4g".toList TOP)).2[1]! = (DecodeGeoHash "wx4g".toList).2[1]! :=
  ⟨by rw [calculateAdjacent_eq_depth]; decide, by rw [calculateAdjacent_eq_depth]; decide,
   by rw [calculateAdjacent_eq_depth]; decide, by rw [calculateAdjacent_eq_depth]; decide,
   (C2_adjacent_cell "wx4g".toList TOP (by decide) (by decide)
      (by rw [calculateAdjacent_eq_depth]; decide)).1 rfl⟩

/-- C3 (adjacency inverse). For every non-empty string `g` over the alphabet
and every direction `d`, if `calculateAdjacent g d` is non-empty then stepping
back in the opposite direction returns `g`. -/
theorem C3_adjacent_inverse (g : List Char) (d : BaseDirection) (_hne : g ≠ [])
    (hg : ∀ x ∈ g, x ∈ Base32) (hh : calculateAdjacent g d ≠ []) :
    calculateAdjacent (calculateAdjacent g d) (opposite d) = g :=
  calculateAdjacent_inverse g d hg hh

set_option maxRecDepth 100000 in
/-- C3 at `wx4g` and the direction `RIGHT`: the right neighbour is `wx55`, and
its left neighbour is `wx4g` again. -/
theorem C3_adjacent_inverse_witness :
    "wx4g".toList ≠ [] ∧ (∀ x ∈ "wx4g".toList, x ∈ Base32) ∧
    calculateAdjacent "wx4g".toList RIGHT ≠ [] ∧
    calculateAdjacent (calculateAdjacent "wx4g".toList RIGHT) (opposite RIGHT) = "wx4g".toList :=
  ⟨by decide, by decide, by rw [calculateAdjacent_eq_depth]; decide,
   C3_adjacent_inverse "wx4g".toList RIGHT (by decide) (by decide)
     (by rw [calculateAdjacent_eq_depth]; decide)⟩

/-- C4 (argument errors). `EncodeGeoHash` always returns; the error is non-nil
exactly when `precision ≤ 0` or the latitude is outside [-90, 90] or the
longitude is outside [-180, 180]; and with a non-nil error the returned string
is empty. -/
theorem C4_encode_error_iff (latitude longitude : ℚ) (precision : Int) :
    ∃ g err, EncodeGeoHash latitude longitude precision = some (g, err) ∧
      (err = true ↔ (precision ≤ 0 ∨ latitude < -90 ∨ 90 < latitude ∨
        longitude < -180 ∨ 180 < longitude)) ∧
      (err = true → g = []) := by
  by_cases hbad : precision ≤ 0 ∨ latitude < -90 ∨ 90 < latitude ∨
      longitude < -180 ∨ 180 < longitude
  · refine ⟨[], true, ?_, by simp [hbad], fun _ => rfl⟩
    unfold EncodeGeoHash
    rw [if_pos]
    rcases hbad with h | h
    · exact Or.inl h
    · right
      rw [CoordinateCheck_iff]
      intro ⟨a, b, c, d⟩
      rcases h with h | h | h | h <;> linarith
  · have hp : 1 ≤ precision := by
      by_contra hc; exact hbad (Or.inl (by omega))
    have hlat : -90 ≤ latitude ∧ latitude ≤ 90 := by
      constructor
      · by_contra hc; exact hbad (Or.inr (Or.inl (not_le.mp hc)))
      · by_contra hc; exact hbad (Or.inr (Or.inr (Or.inl (not_le.mp hc))))
    have hlng : -180 ≤ longitude ∧ longitude ≤ 180 := by
      constructor
      · by_contra hc; exact hbad (Or.inr (Or.inr (Or.inr (Or.inl (not_le.mp hc)))))
      · by_contra hc; exact hbad (Or.inr (Or.inr (Or.inr (Or.inr (not_le.mp hc)))))
    obtain ⟨g, hg, _⟩ := EncodeGeoHash_spec latitude longitude precision hlat hlng hp
    exact ⟨g, false, hg, by simp [hbad], by simp⟩

/-- C5 (length). For every valid coordinate and precision at least 1 the
string returned by `EncodeGeoHash` has exactly `precision` symbols. -/
theorem C5_encode_length (latitude longitude : ℚ) (precision : Int)
    (hlat : -90 ≤ latitude ∧ latitude ≤ 90) (hlng : -180 ≤ longitude ∧ longitude ≤ 180)
    (hp : 1 ≤ precision) :
    ∃ g, EncodeGeoHash latitude longitude precision = some (g, false) ∧
      (g.length : Int) = precision := by
  obtain ⟨g, hg, hl, _⟩ := EncodeGeoHash_spec latitude longitude precision hlat hlng hp
  exact ⟨g, hg, hl⟩

/-- C5 at latitude 39.928167, longitude 116.389550, precision 4. -/
theorem C5_encode_length_witness :
    ((-90 : ℚ) ≤ 39928167 / 1000000 ∧ (39928167 / 1000000 : ℚ) ≤ 90) ∧
    ((-180 : ℚ) ≤ 11638955 / 100000 ∧ (11638955 / 100000 : ℚ) ≤ 180) ∧ (1 : Int) ≤ 4 ∧
    ∃ g, EncodeGeoHash (39928167 / 1000000) (11638955 / 100000) 4 = some (g, false) ∧
      (g.length : Int) = 4 :=
  ⟨by norm_num, by norm_num, by norm_num,
    C5_encode_length (39928167 / 1000000) (11638955 / 100000) 4
      (by norm_num) (by norm_num) (by norm_num)⟩

/-- C6 (alphabet closure of the encoder). For every valid coordinate and
precision at least 1, `EncodeGeoHash` returns (no index `Bits[bitIndex]` or
`Base32[ch]` is out of range) and every symbol of the returned string is one
of the 32 symbols of `Base32`. -/
theorem C6_encode_alphabet (latitude longitude : ℚ) (precision : Int)
    (hlat : -90 ≤ latitude ∧ latitude ≤ 90) (hlng : -180 ≤ longitude ∧ longitude ≤ 180)
    (hp : 1 ≤ precision) :
    ∃ g, EncodeGeoHash latitude longitude precision = some (g, false) ∧
      ∀ c ∈ g, c ∈ Base32 := by
  obtain ⟨g, hg, _, hm, _⟩ := EncodeGeoHash_spec latitude longitude precision hlat hlng hp
  exact ⟨g, hg, hm⟩

/-- C6 at latitude 0, longitude 0, precision 12. -/
theorem C6_encode_alphabet_witness :
    ((-90 : ℚ) ≤ 0 ∧ (0 : ℚ) ≤ 90) ∧ ((-180 : ℚ) ≤ 0 ∧ (0 : ℚ) ≤ 180) ∧ (1 : Int) ≤ 12 ∧
    ∃ g, EncodeGeoHash 0 0 12 = some (g, false) ∧ ∀ c ∈ g, c ∈ Base32 :=
  ⟨by norm_num, by norm_num, by norm_num,
    C6_encode_alphabet 0 0 12 (by norm_num) (by norm_num) (by norm_num)⟩

/-- C7 (cell size). For every valid coordinate and precision `p ≥ 1`, the
string `g` that `EncodeGeoHash` returns decodes to a longitude interval whose
half-width `(max - min) / 2` and error margin `lng[3]` are both
`180 / 2 ^ ⌈5p/2⌉`, and to a latitude interval whose half-width and error
margin `lat[3]` are both `90 / 2 ^ ⌊5p/2⌋`. -/
theorem C7_cell_size (latitude longitude : ℚ) (precision : Int)
    (hlat : -90 ≤ latitude ∧ latitude ≤ 90) (hlng : -180 ≤ longitude ∧ longitude ≤ 180)
    (hp : 1 ≤ precision) :
    ∃ g, EncodeGeoHash latitude longitude precision = some (g, false) ∧
      ((DecodeGeoHash g).2[1]! - (DecodeGeoHash g).2[0]!) / 2
        = 180 / 2 ^ ⌈(5 * (precision : ℚ)) / 2⌉₊ ∧
      (DecodeGeoHash g).2[3]! = 180 / 2 ^ ⌈(5 * (precision : ℚ)) / 2⌉₊ ∧
      ((DecodeGeoHash g).1[1]! - (DecodeGeoHash g).1[0]!) / 2
        = 90 / 2 ^ ⌊(5 * (precision : ℚ)) / 2⌋₊ ∧
      (DecodeGeoHash g).1[3]! = 90 / 2 ^ ⌊(5 * (precision : ℚ)) / 2⌋₊ := by
  obtain ⟨g, hg, hl, _⟩ := EncodeGeoHash_spec latitude longitude precision hlat hlng hp
  obtain ⟨_, f2, f3, f4, f5, _⟩ := decodeLoop_facts g
  obtain ⟨a0, a1, _, a3⟩ := DecodeGeoHash_lat g
  obtain ⟨b0, b1, _, b3⟩ := DecodeGeoHash_lng g
  refine ⟨g, hg, ?_, ?_, ?_, ?_⟩
  · rw [b0, b1, f5, f3, ← hl, ceil_five_halves]; ring
  · rw [b3, f3, ← hl, ceil_five_halves]
  · rw [a0, a1, f4, f2, ← hl, floor_five_halves]; ring
  · rw [a3, f2, ← hl, floor_five_halves]

/-- C7 at latitude 42.605, longitude -5.603, precision 5 (the cell `ezs42`). -/
theorem C7_cell_size_witness :
    ((-90 : ℚ) ≤ 42605 / 1000 ∧ (42605 / 1000 : ℚ) ≤ 90) ∧
    ((-180 : ℚ) ≤ -5603 / 1000 ∧ (-5603 / 1000 : ℚ) ≤ 180) ∧ (1 : Int) ≤ 5 ∧
    ∃ g, EncodeGeoHash (42605 / 1000) (-5603 / 1000) 5 = some (g, false) ∧
      ((DecodeGeoHash g).2[1]! - (DecodeGeoHash g).2[0]!) / 2
        = 180 / 2 ^ ⌈(5 * ((5 : Int) : ℚ)) / 2⌉₊ ∧
      (DecodeGeoHash g).2[3]! = 180 / 2 ^ ⌈(5 * ((5 : Int) : ℚ)) / 2⌉₊ ∧
      ((DecodeGeoHash g).1[1]! - (DecodeGeoHash g).1[0]!) / 2
        = 90 / 2 ^ ⌊(5 * ((5 : Int) : ℚ)) / 2⌋₊ ∧
      (DecodeGeoHash g).1[3]! = 90 / 2 ^ ⌊(5 * ((5 : Int) : ℚ)) / 2⌋₊ :=
  ⟨by norm_num, by norm_num, by norm_num,
    C7_cell_size (42605 / 1000) (-5603 / 1000) 5 (by norm_num) (by norm_num) (by norm_num)⟩

/-- C8 (code at the failing input). The string `a` is outside the alphabet,
yet `DecodeGeoHash` returns a pair of intervals for it, the cell of `z`:
`byteSliceIndexOf` gives `-1`, and `-1 & mask` is positive for every mask. -/
theorem C8_decode_garbage_succeeds :
    byteSliceIndexOf Base32 'a' = -1 ∧
    DecodeGeoHash "a".toList = ([45, 90, 135 / 2, 45 / 2], [135, 180, 315 / 2, 45 / 2]) ∧
    DecodeGeoHash "a".toList = DecodeGeoHash "z".toList := by
  refine ⟨by decide, ?_, ?_⟩ <;> with_unfolding_all decide

/-- C9 (code at the failing input). `DecodeGeoHash` does not lower-case its
input: `EZS42` decodes to a cell in the north-east corner of the map (each
upper-case letter is read as index `-1`), `ezs42` to the cell around latitude
42.6, longitude -5.6. -/
theorem C9_decode_uppercase_differs :
    ToLower "EZS42".toList = "ezs42".toList ∧
    DecodeGeoHash "EZS42".toList
      = ([91125 / 1024, 45585 / 512, 182295 / 2048, 45 / 2048],
         [5715 / 32, 182925 / 1024, 365805 / 2048, 45 / 2048]) ∧
    DecodeGeoHash "ezs42".toList
      = ([43605 / 1024, 21825 / 512, 87255 / 2048, 45 / 2048],
         [-45 / 8, -5715 / 1024, -11475 / 2048, 45 / 2048]) ∧
    DecodeGeoHash "EZS42".toList ≠ DecodeGeoHash (ToLower "EZS42".toList) := by
  have hl : ToLower "EZS42".toList = "ezs42".toList := by decide
  have h1 : DecodeGeoHash "EZS42".toList
      = ([91125 / 1024, 45585 / 512, 182295 / 2048, 45 / 2048],
         [5715 / 32, 182925 / 1024, 365805 / 2048, 45 / 2048]) := by
    simp +decide [DecodeGeoHash, decodeLoop, decodeChar, decodeBit, decodeInit, refineInterval,
      Bits, byteSliceIndexOf, byteSliceIndexOfFrom, Base32, land_neg_one_Bits]
    norm_num
  have h2 : DecodeGeoHash "ezs42".toList
      = ([43605 / 1024, 21825 / 512, 87255 / 2048, 45 / 2048],
         [-45 / 8, -5715 / 1024, -11475 / 2048, 45 / 2048]) := by
    simp +decide [DecodeGeoHash, decodeLoop, decodeChar, decodeBit, decodeInit, refineInterval,
      Bits, byteSliceIndexOf, byteSliceIndexOfFrom, Base32]
    norm_num
  refine ⟨hl, h1, h2, ?_⟩
  rw [hl, h1, h2]
  intro h
  have h3 := congrArg (fun p => p.1.getD 0 0) h
  norm_num at h3

/-- C11 (claim refuted at concrete inputs). `a` is outside the alphabet;
`calculateAdjacent` returns for the string `a` the empty string, the very value
it returns for the edge cell `z`, and for the string `a0` it returns the
neighbour string `a2`. -/
theorem C11_invalid_character_counterexample :
    'a' ∉ Base32 ∧
    calculateAdjacent "a".toList RIGHT = [] ∧ calculateAdjacent "z".toList RIGHT = [] ∧
    calculateAdjacent "a0".toList RIGHT = "a2".toList ∧ calculateAdjacent "a0".toList RIGHT ≠ [] := by
  refine ⟨by decide, ?_, ?_, ?_, ?_⟩ <;> rw [calculateAdjacent_eq_depth] <;> decide

/-- C11 (as amended). For every ASCII string whose last character,
lower-cased, is outside the 32-symbol alphabet and every direction,
`calculateAdjacent` returns the empty string, the same value as the
no-neighbour sentinel; no index is out of range, whatever `strings.ToLower`
does on other than ASCII strings. -/
theorem C11_bad_last_symbol_empty (base : List Char) (c : Char) (d : BaseDirection)
    (hascii : ∀ x ∈ base ++ [c], x.toNat < 128) (hc : c.toLower ∉ Base32) :
    calculateAdjacent (base ++ [c]) d = [] ∧
    ∀ lower : List Char → List Char,
      (∀ s : List Char, (∀ x ∈ s, x.toNat < 128) → lower s = ToLower s) →
      calculateAdjacentOpt lower (base ++ [c]) d = some [] := by
  have h := calculateAdjacent_bad_last base c d hc
  refine ⟨h, fun lower hlower => ?_⟩
  rw [calculateAdjacentOpt_ascii lower hlower d _ _ rfl hascii, h]

/-- C11 (as amended) at the string `wx4a` and the direction `TOP`. -/
theorem C11_bad_last_symbol_empty_witness :
    (∀ x ∈ "wx4".toList ++ ['a'], x.toNat < 128) ∧ 'a'.toLower ∉ Base32 ∧
    (calculateAdjacent ("wx4".toList ++ ['a']) TOP = [] ∧
     ∀ lower : List Char → List Char,
      (∀ s : List Char, (∀ x ∈ s, x.toNat < 128) → lower s = ToLower s) →
      calculateAdjacentOpt lower ("wx4".toList ++ ['a']) TOP = some []) :=
  ⟨by decide, by decide, C11_bad_last_symbol_empty "wx4".toList 'a' TOP (by decide) (by decide)⟩

/-- C12 (grid ordering; the code at the failing input). Let `lower`, the
library function `strings.ToLower`, lower-case ASCII strings byte by byte and
map the Kelvin sign to `k`. Then for every ASCII string `g` the function
`GetAdjacentGridGeoHash` returns the eight strings top, top-right, right,
bottom-right, bottom, bottom-left, left, top-left, the diagonal ones computed
from the top and the bottom neighbour; and on the Kelvin sign it returns
nothing: the first call of `calculateAdjacent` reads index 2 of the one-byte
string `k`. -/
theorem C12_grid_ordering_ascii_only (lower : List Char → List Char)
    (hlower : ∀ s : List Char, (∀ x ∈ s, x.toNat < 128) → lower s = ToLower s)
    (hkelvin : lower kelvinSign = ['k']) :
    (∀ g : List Char, (∀ x ∈ g, x.toNat < 128) →
      GetAdjacentGridGeoHashOpt lower g =
        some [calculateAdjacent g TOP, calculateAdjacent (calculateAdjacent g TOP) RIGHT,
          calculateAdjacent g RIGHT, calculateAdjacent (calculateAdjacent g BOTTOM) RIGHT,
          calculateAdjacent g BOTTOM, calculateAdjacent (calculateAdjacent g BOTTOM) LEFT,
          calculateAdjacent g LEFT, calculateAdjacent (calculateAdjacent g TOP) LEFT] ∧
      ∀ d : BaseDirection, calculateAdjacentOpt lower g d = some (calculateAdjacent g d)) ∧
    (∀ d : BaseDirection, calculateAdjacentOpt lower kelvinSign d = none) ∧
    GetAdjacentGridGeoHashOpt lower kelvinSign = none := by
  refine ⟨fun g hg => ⟨?_, fun d => calculateAdjacentOpt_ascii lower hlower d _ g rfl hg⟩,
    calculateAdjacentOpt_kelvinSign lower hkelvin, ?_⟩
  · rw [GetAdjacentGridGeoHashOpt_ascii lower hlower g hg]; rfl
  · simp only [GetAdjacentGridGeoHashOpt, calculateAdjacentOpt_kelvinSign lower hkelvin,
      Option.bind_eq_bind, Option.none_bind]

set_option maxRecDepth 100000 in
/-- C12 at the function `lowerSample`: the grid of the ASCII string `wx4g`, and
no result on the Kelvin sign. -/
theorem C12_grid_ordering_ascii_only_witness :
    (∀ s : List Char, (∀ x ∈ s, x.toNat < 128) → lowerSample s = ToLower s) ∧
    lowerSample kelvinSign = ['k'] ∧
    GetAdjacentGridGeoHashOpt lowerSample "wx4g".toList =
      some ["wx4u".toList, "wx5h".toList, "wx55".toList, "wx54".toList, "wx4f".toList,
        "wx4d".toList, "wx4e".toList, "wx4s".toList] ∧
    (∀ d : BaseDirection, calculateAdjacentOpt lowerSample kelvinSign d = none) ∧
    GetAdjacentGridGeoHashOpt lowerSample kelvinSign = none := by
  have h := C12_grid_ordering_ascii_only lowerSample lowerSample_ascii lowerSample_kelvinSign
  refine ⟨lowerSample_ascii, lowerSample_kelvinSign, ?_, h.2.1, h.2.2⟩
  rw [(h.1 "wx4g".toList (by decide)).1]
  simp only [calculateAdjacent_eq_depth]
  decide!

/-- C13 (empty input). `DecodeGeoHash ""` returns the full-Earth intervals
`[-90, 90, 0, 90]` and `[-180, 180, 0, 180]`, each with 4 elements. -/
theorem C13_decode_empty :
    DecodeGeoHash [] = ([-90, 90, 0, 90], [-180, 180, 0, 180]) ∧
    (DecodeGeoHash []).1.length = 4 ∧ (DecodeGeoHash []).2.length = 4 := by
  refine ⟨?_, rfl, rfl⟩
  simp only [DecodeGeoHash, decodeLoop, List.foldl_nil, decodeInit]
  norm_num

/-- C14 (ties go to the lower half). For every valid coordinate and precision
at least 1, with `(latI, lngI)` the decoding of the encoder's result: the
longitude is strictly above `lngI[0]` or it is -180, and the latitude is
strictly above `latI[0]` or it is -90. -/
theorem C14_tie_lower_half (latitude longitude : ℚ) (precision : Int)
    (hlat : -90 ≤ latitude ∧ latitude ≤ 90) (hlng : -180 ≤ longitude ∧ longitude ≤ 180)
    (hp : 1 ≤ precision) :
    ∃ g, EncodeGeoHash latitude longitude precision = some (g, false) ∧
      (longitude > (DecodeGeoHash g).2[0]! ∨ longitude = -180) ∧
      (latitude > (DecodeGeoHash g).1[0]! ∨ latitude = -90) := by
  obtain ⟨s', hs', hg, _, _, _, hag, _⟩ :=
    EncodeGeoHash_final latitude longitude precision hlat hlng hp
  have h0 : StrictLow encodeInit latitude longitude := by
    constructor
    · rcases eq_or_lt_of_le hlat.1 with h | h
      · right; exact h.symm
      · left; exact h
    · rcases eq_or_lt_of_le hlng.1 with h | h
      · right; exact h.symm
      · left; exact h
  obtain ⟨k1, k2⟩ := encodeLoop_preserves latitude longitude precision
    (fun s => StrictLow s latitude longitude)
    (fun s s' h hs => encodeBody_strict latitude longitude s s' h hs)
    (5 * precision.toNat) encodeInit s' hs' h0
  obtain ⟨_, a2, a3⟩ := hag
  refine ⟨s'.buffer, hg, ?_, ?_⟩
  · rw [(DecodeGeoHash_lng s'.buffer).1, a3]; exact k2
  · rw [(DecodeGeoHash_lat s'.buffer).1, a2]; exact k1

/-- C14 at latitude 0, longitude 0, precision 1: both coordinates sit on the
first midpoints, and the cell returned, `7`, has them as its upper bounds. -/
theorem C14_tie_lower_half_witness :
    ((-90 : ℚ) ≤ 0 ∧ (0 : ℚ) ≤ 90) ∧ ((-180 : ℚ) ≤ 0 ∧ (0 : ℚ) ≤ 180) ∧ (1 : Int) ≤ 1 ∧
    EncodeGeoHash 0 0 1 = some ("7".toList, false) ∧
    (DecodeGeoHash "7".toList).1[1]! = 0 ∧ (DecodeGeoHash "7".toList).2[1]! = 0 ∧
    ∃ g, EncodeGeoHash 0 0 1 = some (g, false) ∧
      ((0 : ℚ) > (DecodeGeoHash g).2[0]! ∨ (0 : ℚ) = -180) ∧
      ((0 : ℚ) > (DecodeGeoHash g).1[0]! ∨ (0 : ℚ) = -90) :=
  ⟨by norm_num, by norm_num, by norm_num, by with_unfolding_all decide,
   by with_unfolding_all decide, by with_unfolding_all decide,
   C14_tie_lower_half 0 0 1 (by norm_num) (by norm_num) (by norm_num)⟩

set_option maxRecDepth 100000 in
/-- C15 (claim refuted at a concrete input). For `wx4g` and `TOP` the result is
`wx4u`, whose last symbol `u` is not `NEIGHBORS[EVEN][TOP][15]`, which is `f`
(15 is the index of `g` in `Base32`). -/
theorem C15_lookup_counterexample :
    calculateAdjacent "wx4g".toList TOP = "wx4u".toList ∧
    byteSliceIndexOf Base32 'g' = 15 ∧ indexTypeOf "wx4g".toList.length = EVEN ∧
    (NEIGHBORS EVEN TOP)[15]? = some 'f' ∧
    (calculateAdjacent "wx4g".toList TOP).getLast?
      ≠ (NEIGHBORS (indexTypeOf "wx4g".toList.length) TOP)[(byteSliceIndexOf Base32 'g').toNat]? := by
  have h : calculateAdjacent "wx4g".toList TOP = "wx4u".toList := by
    rw [calculateAdjacent_eq_depth]; decide
  refine ⟨h, by decide, by decide, by decide, ?_⟩
  rw [h]
  decide

/-- C15 (as amended). For every non-empty string `g` over the alphabet with last
symbol `c` and every direction `d` for which the result is non-empty, the last
symbol of the result is `Base32[j]`, where `j` is the position of `c` in
`NEIGHBORS[parity][d]`; it is the entry of the row of the opposite direction,
`NEIGHBORS[parity][opposite d][i]`, at the index `i` of `c` in `Base32`. The
parity is `ODD` for odd length and `EVEN` for even length. -/
theorem C15_lookup_is_inverse (g : List Char) (d : BaseDirection) (_hne : g ≠ [])
    (hg : ∀ x ∈ g, x ∈ Base32) (hh : calculateAdjacent g d ≠ []) :
    ∃ c r, g.getLast? = some c ∧ (calculateAdjacent g d).getLast? = some r ∧
      Base32[(byteSliceIndexOf (NEIGHBORS (indexTypeOf g.length) d) c).toNat]? = some r ∧
      (NEIGHBORS (indexTypeOf g.length) (opposite d))[(byteSliceIndexOf Base32 c).toNat]?
        = some r := by
  rcases List.eq_nil_or_concat g with h | ⟨base, c, h⟩
  · subst h; exact absurd (calculateAdjacent_nil d) hh
  · subst h
    rw [List.concat_eq_append] at hg hh ⊢
    have hbase : ∀ x ∈ base, x ∈ Base32 := fun x hx => hg x (List.mem_append_left _ hx)
    have hc : c ∈ Base32 := hg c (List.mem_append_right _ (List.mem_singleton_self c))
    refine ⟨c, newLast (indexTypeOf (base.length + 1)) d c, by simp, ?_, ?_, ?_⟩
    · exact calculateAdjacent_getLast base c d hbase hc hh
    · rw [List.length_append, List.length_singleton]
      unfold newLast
      rw [List.getD_eq_getElem?_getD,
        List.getElem?_eq_getElem (neighborIndex_lt (indexTypeOf (base.length + 1)) d c)]
      rfl
    · rw [List.length_append, List.length_singleton]
      exact newLast_eq_opposite_row _ d c hc

set_option maxRecDepth 100000 in
/-- C15 (as amended) at `wx4g` and `TOP`. -/
theorem C15_lookup_is_inverse_witness :
    "wx4g".toList ≠ [] ∧ (∀ x ∈ "wx4g".toList, x ∈ Base32) ∧
    calculateAdjacent "wx4g".toList TOP ≠ [] ∧
    ∃ c r, "wx4g".toList.getLast? = some c ∧
      (calculateAdjacent "wx4g".toList TOP).getLast? = some r ∧
      Base32[(byteSliceIndexOf (NEIGHBORS (indexTypeOf "wx4g".toList.length) TOP) c).toNat]?
        = some r ∧
      (NEIGHBORS (indexTypeOf "wx4g".toList.length) (opposite TOP))[
        (byteSliceIndexOf Base32 c).toNat]? = some r :=
  ⟨by decide, by decide, by rw [calculateAdjacent_eq_depth]; decide,
   C15_lookup_is_inverse "wx4g".toList TOP (by decide) (by decide)
     (by rw [calculateAdjacent_eq_depth]; decide)⟩

/-- C16 (case normalization in adjacency; the code at the failing input). Let
`lower`, the library function `strings.ToLower`, lower-case ASCII strings byte
by byte and map the Kelvin sign to `k`. Then for every ASCII string `g` and
direction `d`, `calculateAdjacent g d` returns what it returns for the
lower-cased string, a string without upper-case letter; but on the Kelvin sign
the call does not return (index 2 of the one-byte string `k` is read), while on
its lower-cased form `k` it returns `s` for `TOP`. -/
theorem C16_case_normalization_ascii_only (lower : List Char → List Char)
    (hlower : ∀ s : List Char, (∀ x ∈ s, x.toNat < 128) → lower s = ToLower s)
    (hkelvin : lower kelvinSign = ['k']) :
    (∀ (g : List Char) (d : BaseDirection), (∀ x ∈ g, x.toNat < 128) →
      calculateAdjacentOpt lower g d = calculateAdjacentOpt lower (lower g) d ∧
      calculateAdjacentOpt lower g d = some (calculateAdjacent g d) ∧
      ∀ x ∈ calculateAdjacent g d, x.isUpper = false) ∧
    calculateAdjacentOpt lower kelvinSign TOP = none ∧
    calculateAdjacentOpt lower (lower kelvinSign) TOP = some ['s'] := by
  refine ⟨fun g d hg => ⟨?_, ?_, calculateAdjacent_isUpper g d⟩,
    calculateAdjacentOpt_kelvinSign lower hkelvin TOP, ?_⟩
  · rw [hlower g hg, calculateAdjacentOpt_ascii lower hlower d _ g rfl hg,
      calculateAdjacentOpt_ascii lower hlower d _ _ rfl (ToLower_ascii g hg),
      ← calculateAdjacent_ToLower]
  · exact calculateAdjacentOpt_ascii lower hlower d _ g rfl hg
  · rw [hkelvin, calculateAdjacentOpt_ascii lower hlower TOP _ ['k'] rfl (by decide),
      calculateAdjacent_eq_depth]
    decide

set_option maxRecDepth 100000 in
/-- C16 at the function `lowerSample`: `WX4G` and `TOP` give `wx4u`, the Kelvin
sign gives no result, and its lower-cased form `k` gives `s`. -/
theorem C16_case_normalization_ascii_only_witness :
    (∀ s : List Char, (∀ x ∈ s, x.toNat < 128) → lowerSample s = ToLower s) ∧
    lowerSample kelvinSign = ['k'] ∧
    calculateAdjacentOpt lowerSample "WX4G".toList TOP = some "wx4u".toList ∧
    calculateAdjacentOpt lowerSample (lowerSample "WX4G".toList) TOP = some "wx4u".toList ∧
    calculateAdjacentOpt lowerSample kelvinSign TOP = none ∧
    calculateAdjacentOpt lowerSample (lowerSample kelvinSign) TOP = some ['s'] := by
  have h := C16_case_normalization_ascii_only lowerSample lowerSample_ascii
    lowerSample_kelvinSign
  have h1 := (h.1 "WX4G".toList TOP (by decide)).2.1
  have h2 := (h.1 "WX4G".toList TOP (by decide)).1
  have h3 : calculateAdjacent "WX4G".toList TOP = "wx4u".toList := by
    rw [calculateAdjacent_eq_depth]; decide
  refine ⟨lowerSample_ascii, lowerSample_kelvinSign, ?_, ?_, h.2.1, h.2.2⟩
  · rw [h1, h3]
  · rw [← h2, h1, h3]

/-- C17 (encode inverts decode on cell centres). For every non-empty string `g`
over the alphabet, with `(lat, lng) = DecodeGeoHash g`, encoding the centre
`(lat[2], lng[2])` with precision `len(g)` returns `g` and no error. -/
theorem C17_encode_centre (g : List Char) (hne : g ≠ [])
    (hg : ∀ x ∈ g, x ∈ Base32) :
    EncodeGeoHash (DecodeGeoHash g).1[2]! (DecodeGeoHash g).2[2]! (g.length : Int)
      = some (g, false) := by
  obtain ⟨_, _, _, _, _, f6, f7, f8, f9⟩ := decodeLoop_facts g
  have wlat := decodeLoop_lat_lt g
  have wlng := decodeLoop_lng_lt g
  rw [(DecodeGeoHash_lat g).2.2.1, (DecodeGeoHash_lng g).2.2.1]
  have hlen : 1 ≤ (g.length : Int) := by
    have : 0 < g.length := List.length_pos.mpr hne
    omega
  obtain ⟨g', hg', hl', hm', c1, c2, c3, c4⟩ := EncodeGeoHash_spec
    (((decodeLoop g).lat.1 + (decodeLoop g).lat.2) / 2)
    (((decodeLoop g).lng.1 + (decodeLoop g).lng.2) / 2) (g.length : Int)
    ⟨by linarith, by linarith⟩ ⟨by linarith, by linarith⟩ hlen
  have heq : g' = g := cell_unique g g' _ _ (by exact_mod_cast hl') hg hm'
    (by linarith) (by linarith) (by linarith) (by linarith) c1 c2 c3 c4
  rw [hg', heq]

/-- C17 at the string `ezs42`. -/
theorem C17_encode_centre_witness :
    "ezs42".toList ≠ [] ∧ (∀ x ∈ "ezs42".toList, x ∈ Base32) ∧
    EncodeGeoHash (DecodeGeoHash "ezs42".toList).1[2]! (DecodeGeoHash "ezs42".toList).2[2]!
      ("ezs42".toList.length : Int) = some ("ezs42".toList, false) :=
  ⟨by decide, by decide, C17_encode_centre "ezs42".toList (by decide) (by decide)⟩

/-- C18 (prefix property). For every valid coordinate and precisions
`1 ≤ p ≤ q`, the string `EncodeGeoHash` returns for `p` is a prefix of the
string it returns for `q`. -/
theorem C18_encode_prefix (latitude longitude : ℚ) (p q : Int)
    (hlat : -90 ≤ latitude ∧ latitude ≤ 90) (hlng : -180 ≤ longitude ∧ longitude ≤ 180)
    (hp : 1 ≤ p) (hpq : p ≤ q) :
    ∃ gp gq, EncodeGeoHash latitude longitude p = some (gp, false) ∧
      EncodeGeoHash latitude longitude q = some (gq, false) ∧ gp <+: gq :=
  EncodeGeoHash_prefix latitude longitude p q hlat hlng hp hpq

/-- C18 at latitude 39.928167, longitude 116.389550, precisions 4 and 9. -/
theorem C18_encode_prefix_witness :
    ((-90 : ℚ) ≤ 39928167 / 1000000 ∧ (39928167 / 1000000 : ℚ) ≤ 90) ∧
    ((-180 : ℚ) ≤ 11638955 / 100000 ∧ (11638955 / 100000 : ℚ) ≤ 180) ∧
    (1 : Int) ≤ 4 ∧ (4 : Int) ≤ 9 ∧
    ∃ gp gq, EncodeGeoHash (39928167 / 1000000) (11638955 / 100000) 4 = some (gp, false) ∧
      EncodeGeoHash (39928167 / 1000000) (11638955 / 100000) 9 = some (gq, false) ∧ gp <+: gq :=
  ⟨by norm_num, by norm_num, by norm_num, by norm_num,
   C18_encode_prefix (39928167 / 1000000) (11638955 / 100000) 4 9
     (by norm_num) (by norm_num) (by norm_num) (by norm_num)⟩

/-- C19 (vertical and horizontal steps commute). For every string `g` over the
alphabet, the empty string included, every `v` in {TOP, BOTTOM} and every `h`
in {LEFT, RIGHT}, stepping `v` then `h` gives the same string as stepping `h`
then `v`, also when one of the steps returns the empty string. -/
theorem C19_steps_commute (g : List Char) (v h : BaseDirection)
    (hg : ∀ x ∈ g, x ∈ Base32) (hv : v = TOP ∨ v = BOTTOM) (hh : h = LEFT ∨ h = RIGHT) :
    calculateAdjacent (calculateAdjacent g v) h = calculateAdjacent (calculateAdjacent g h) v :=
  calculateAdjacent_comm g v h hv hh hg

set_option maxRecDepth 100000 in
/-- C19 at `zvxupc` on the east edge of the map, for `TOP` and `RIGHT`: both
orders give the empty string; the top neighbour itself is `zvxupf`. -/
theorem C19_steps_commute_witness :
    (∀ x ∈ "zvxupc".toList, x ∈ Base32) ∧ (TOP = TOP ∨ TOP = BOTTOM) ∧
    (RIGHT = LEFT ∨ RIGHT = RIGHT) ∧
    calculateAdjacent "zvxupc".toList TOP = "zvxupf".toList ∧
    calculateAdjacent "zvxupc".toList RIGHT = [] ∧
    calculateAdjacent (calculateAdjacent "zvxupc".toList TOP) RIGHT
      = calculateAdjacent (calculateAdjacent "zvxupc".toList RIGHT) TOP :=
  ⟨by decide, by decide, by decide, by rw [calculateAdjacent_eq_depth]; decide,
   by rw [calculateAdjacent_eq_depth]; decide,
   C19_steps_commute "zvxupc".toList TOP RIGHT (by decide) (by decide) (by decide)⟩

/-- C20 (adjacency preserves precision and validity). For every non-empty
string `g` over the alphabet and every direction `d`, `calculateAdjacent g d` is
the empty string or a string of the length of `g` over the alphabet; and the
index found in the `NEIGHBORS` row is `-1` or lies in `0..31`, for any symbol. -/
theorem C20_adjacent_shape (g : List Char) (d : BaseDirection) (_hne : g ≠ [])
    (hg : ∀ x ∈ g, x ∈ Base32) :
    (calculateAdjacent g d = [] ∨
      ((calculateAdjacent g d).length = g.length ∧
        ∀ x ∈ calculateAdjacent g d, x ∈ Base32)) ∧
    ∀ c : Char, byteSliceIndexOf (NEIGHBORS (indexTypeOf g.length) d) c = -1 ∨
      (0 ≤ byteSliceIndexOf (NEIGHBORS (indexTypeOf g.length) d) c ∧
        byteSliceIndexOf (NEIGHBORS (indexTypeOf g.length) d) c < 32) :=
  ⟨calculateAdjacent_shape g d hg, fun c => neighborIndex_range _ d c⟩

/-- C20 at `wx4g` and `LEFT`. -/
theorem C20_adjacent_shape_witness :
    "wx4g".toList ≠ [] ∧ (∀ x ∈ "wx4g".toList, x ∈ Base32) ∧
    ((calculateAdjacent "wx4g".toList LEFT = [] ∨
      ((calculateAdjacent "wx4g".toList LEFT).length = "wx4g".toList.length ∧
        ∀ x ∈ calculateAdjacent "wx4g".toList LEFT, x ∈ Base32)) ∧
    ∀ c : Char, byteSliceIndexOf (NEIGHBORS (indexTypeOf "wx4g".toList.length) LEFT) c = -1 ∨
      (0 ≤ byteSliceIndexOf (NEIGHBORS (indexTypeOf "wx4g".toList.length) LEFT) c ∧
        byteSliceIndexOf (NEIGHBORS (indexTypeOf "wx4g".toList.length) LEFT) c < 32)) :=
  ⟨by decide, by decide, C20_adjacent_shape "wx4g".toList LEFT (by decide) (by decide)⟩

end Geohash
